import Mathlib

/-!
Verification development for the mdx dictionary storage engine.

Rust source files are shallowly embedded as Lean definitions: bytes are `Nat`
values kept below 256, `Vec<u8>` is `List Nat`, fallible functions return
`Except ZdbError`, and Rust panics are modelled by the dedicated
`ZdbError.panicked` value, which is not one of the source's error variants.
External crates (compression codecs, xxhash, ripemd, ICU, encoding_rs) are
passed in as function parameters, since only their contracts matter here.
-/

namespace Mdx

/-- Embeds the `ZdbError` enum of `src/error.rs` (data-free fields such as
backtraces are dropped; `panicked` is an extra value modelling Rust panics,
which are not `ZdbError` variants in the source). -/
inductive ZdbError where
  | io (msg : String)
  | crcMismatch (expected got : Nat)
  | parserError (msg : String)
  | invalidDataFormat (message : String)
  | invalidParameter (message : String)
  | keyNotFound (key : String)
  | compressionError (message : String)
  | userInterrupted
  | generalError (message : String)
  | panicked (msg : String)
  deriving DecidableEq, Repr

/-- Big-endian value of a byte list, each byte reduced mod 256 as a `u8`. -/
def beVal (bs : List Nat) : Nat :=
  bs.foldl (fun acc b => acc * 256 + b % 256) 0

/-- Big-endian 2-byte encoding of a `u16` value. -/
def be16 (n : Nat) : List Nat :=
  [n / 256 % 256, n % 256]

/-- Big-endian 4-byte encoding of a `u32` value. -/
def be32 (n : Nat) : List Nat :=
  [n / 16777216 % 256, n / 65536 % 256, n / 256 % 256, n % 256]

/-- Big-endian 8-byte encoding of a `u64` value. -/
def be64 (n : Nat) : List Nat :=
  [n / 72057594037927936 % 256, n / 281474976710656 % 256,
   n / 1099511627776 % 256, n / 4294967296 % 256,
   n / 16777216 % 256, n / 65536 % 256, n / 256 % 256, n % 256]

/-- Embeds `read_u8`: one byte from the stream, EOF is an I/O error. -/
def readU8 : List Nat → Except ZdbError (Nat × List Nat)
  | [] => .error (.io "failed to fill whole buffer")
  | b :: rest => .ok (b % 256, rest)

/-- Embeds `read_exact_to_vec` of `src/utils/io_utils.rs`: exactly `n` bytes. -/
def readBytesN (n : Nat) (l : List Nat) : Except ZdbError (List Nat × List Nat) :=
  if n ≤ l.length then .ok (l.take n, l.drop n)
  else .error (.io "failed to fill whole buffer")

/-- Embeds `read_u16::<BigEndian>`. -/
def readU16BE (l : List Nat) : Except ZdbError (Nat × List Nat) :=
  match readBytesN 2 l with
  | .ok (bs, rest) => .ok (beVal bs, rest)
  | .error e => .error e

/-- Embeds `read_u32::<BigEndian>`. -/
def readU32BE (l : List Nat) : Except ZdbError (Nat × List Nat) :=
  match readBytesN 4 l with
  | .ok (bs, rest) => .ok (beVal bs, rest)
  | .error e => .error e

/-- Embeds `read_u64::<BigEndian>`. -/
def readU64BE (l : List Nat) : Except ZdbError (Nat × List Nat) :=
  match readBytesN 8 l with
  | .ok (bs, rest) => .ok (beVal bs, rest)
  | .error e => .error e

/-- One step of the Adler-32 state update (the `adler` crate implements the
standard RFC 1950 Adler-32 used by `adler::adler32_slice`). -/
def adlerStep : Nat × Nat → Nat → Nat × Nat
  | (a, b), byte => ((a + byte % 256) % 65521, (b + (a + byte % 256) % 65521) % 65521)

/-- Standard Adler-32 checksum over a byte list, as `adler::adler32_slice`. -/
def adler32 (data : List Nat) : Nat :=
  let p := data.foldl adlerStep (1, 0)
  p.2 * 65536 + p.1

/-- Embeds `fast_hash_digest` of `src/crypto/digest.rs`. The external
`xxhash_rust::xxh64` hasher is a parameter `xxh64 seed bytes`. -/
def fastHashDigest (xxh64 : Nat → List Nat → Nat) (input : List Nat) :
    Except ZdbError (List Nat) :=
  if input.isEmpty then .error (.invalidParameter "Input is empty")
  else
    let firstPartLen := (input.length + 1) / 2
    let out := be64 (xxh64 0 (input.take firstPartLen))
    if input.length > 1 then
      .ok (out ++ be64 (xxh64 0 (input.drop firstPartLen)))
    else
      .ok out

/-- Embeds the crypto-key assignment of `ZDBBuilder::build_db_header`
(`src/builder/zdb_builder.rs` lines 376-381): `fast_hash(uuid)` when the
password is empty, otherwise `fast_hash(password)`. -/
def buildDbHeaderCryptoKey (xxh64 : Nat → List Nat → Nat)
    (password uuid : List Nat) : Except ZdbError (List Nat) :=
  if password.isEmpty then fastHashDigest xxh64 uuid
  else fastHashDigest xxh64 password

/-- Embeds `ZdbRecord` of `src/builder/data_loader.rs`. -/
structure ZdbRecord where
  key : String
  contentOffsetInSource : Nat
  position : Nat
  content : String
  contentLen : Nat
  lineNo : Nat
  deriving DecidableEq, Repr

/-- Embeds `MDictSourceLoader::load_data` (`src/builder/mdict_source_loader.rs`
lines 29-34): the buffer is created with `Vec::with_capacity(content_len)`,
whose length is 0, the reader seeks to `entry.position`, and `read_exact`
fills exactly `data.len() == 0` bytes, so the returned vector is empty. -/
def mdictLoadData (_source : List Nat) (_entry : ZdbRecord) :
    Except ZdbError (List Nat) :=
  .ok []

/-- The bytes of a record in the source file, as described by its
`position`/`content_len` fields: what a correct loader would return. -/
def sourceContentSlice (source : List Nat) (entry : ZdbRecord) : List Nat :=
  (source.drop entry.position).take entry.contentLen

/-- Embeds `ZDB_MAX_KEYWORD_LENGTH` of `src/builder/data_loader.rs`. -/
def ZDB_MAX_KEYWORD_LENGTH : Nat := 255

/-- Embeds `MAX_ENTRY_LEN` of `src/builder/data_loader.rs` (64 MiB). -/
def MAX_ENTRY_LEN : Nat := 64 * 1024 * 1024

/-- Embeds the per-record validation of `MDictSourceLoader::new`
(`src/builder/mdict_source_loader.rs` lines 65-105): an empty key line in the
middle of the file is `Invalid key`, a key longer than 255 bytes is
`Key too long`, content longer than 64 MiB is `Record too long`; otherwise
the record is accepted (pushed onto `entry_records`). Key and content are
given as their byte sequences. -/
def mdictCheckRecord (key content : List Nat) : Except ZdbError Unit :=
  if key.isEmpty then .error (.invalidDataFormat "Invalid key")
  else if key.length > ZDB_MAX_KEYWORD_LENGTH then
    .error (.invalidDataFormat "Key too long")
  else if content.length > MAX_ENTRY_LEN then
    .error (.invalidDataFormat "Record too long")
  else .ok ()

/-- Embeds `CompressionMethod` of `src/utils/compression.rs`. -/
inductive CompressionMethod where
  | noComp | lzo | deflate | lzma | bzip2 | lz4
  deriving DecidableEq, Repr

/-- Discriminant of a `CompressionMethod`, as its `#[repr(u8)]` value. -/
def CompressionMethod.toNat : CompressionMethod → Nat
  | .noComp => 0
  | .lzo => 1
  | .deflate => 2
  | .lzma => 3
  | .bzip2 => 4
  | .lz4 => 5

/-- Embeds `TryFrom<u8> for CompressionMethod`. -/
def CompressionMethod.tryFrom (v : Nat) : Except ZdbError CompressionMethod :=
  match v with
  | 0 => .ok .noComp
  | 1 => .ok .lzo
  | 2 => .ok .deflate
  | 3 => .ok .lzma
  | 4 => .ok .bzip2
  | 5 => .ok .lz4
  | _ => .error (.invalidParameter ("Invalid compression method:" ++ toString v))

/-- Embeds `EncryptionMethod` of `src/crypto/encryption.rs`. -/
inductive EncryptionMethod where
  | noEnc | simple | salsa20
  deriving DecidableEq, Repr

/-- Discriminant of an `EncryptionMethod`, as its `#[repr(u8)]` value. -/
def EncryptionMethod.toNat : EncryptionMethod → Nat
  | .noEnc => 0
  | .simple => 1
  | .salsa20 => 2

/-- Embeds `TryFrom<u8> for EncryptionMethod`. -/
def EncryptionMethod.tryFrom (v : Nat) : Except ZdbError EncryptionMethod :=
  match v with
  | 0 => .ok .noEnc
  | 1 => .ok .simple
  | 2 => .ok .salsa20
  | _ => .error (.invalidParameter ("Invalid encryption method:" ++ toString v))

/-- Nibble swap `((b & 0x0f) << 4) | ((b & 0xf0) >> 4)` on a `u8` written
arithmetically (the two halves occupy disjoint bit ranges). -/
def swapNibbles (b : Nat) : Nat :=
  b % 16 * 16 + b / 16 % 16

/-- The key byte `key[i % key.len()]` used by `SimpleEncryptor`. -/
def keyAt (key : List Nat) (i : Nat) : Nat :=
  key.getD (i % key.length) 0

/-- Loop of `SimpleEncryptor::encrypt` (`src/crypto/encryption.rs` lines
148-160): `b = in ^ key[i%len] ^ (i as u8) ^ last_byte`, output and new
`last_byte` are the nibble swap of `b`. -/
def simpleEncryptGo (key : List Nat) : Nat → Nat → List Nat → List Nat
  | _, _, [] => []
  | i, last, b :: rest =>
    let c := swapNibbles (((b % 256) ^^^ keyAt key i) ^^^ (i % 256) ^^^ last)
    c :: simpleEncryptGo key (i + 1) c rest

/-- Embeds `SimpleEncryptor::encrypt`; `last_byte` starts at `0x36`. -/
def simpleEncrypt (key input : List Nat) : List Nat :=
  simpleEncryptGo key 0 0x36 input

/-- Loop of `SimpleEncryptor::decrypt` (`src/crypto/encryption.rs` lines
162-174): output is `swap(b) ^ key[i%len] ^ (i as u8) ^ last_byte`, and the
new `last_byte` is the input byte `b` itself. -/
def simpleDecryptGo (key : List Nat) : Nat → Nat → List Nat → List Nat
  | _, _, [] => []
  | i, last, b :: rest =>
    ((swapNibbles (b % 256) ^^^ keyAt key i) ^^^ (i % 256) ^^^ last)
      :: simpleDecryptGo key (i + 1) (b % 256) rest

/-- Embeds `SimpleEncryptor::decrypt`; `last_byte` starts at `0x36`. -/
def simpleDecrypt (key input : List Nat) : List Nat :=
  simpleDecryptGo key 0 0x36 input

/-- While-loop of `SimpleEncryptor::inplace_decrypt` (`src/crypto/encryption.rs`
lines 177-188), rewriting each `input[i]` in place. -/
def simpleInplaceGo (key : List Nat) : Nat → Nat → List Nat → List Nat
  | _, _, [] => []
  | i, last, b :: rest =>
    ((swapNibbles (b % 256) ^^^ keyAt key i) ^^^ (i % 256) ^^^ last)
      :: simpleInplaceGo key (i + 1) (b % 256) rest

/-- Embeds `SimpleEncryptor::inplace_decrypt`. -/
def simpleInplaceDecrypt (key input : List Nat) : List Nat :=
  simpleInplaceGo key 0 0x36 input

/-- Embeds `Salsa20Context` of `src/crypto/salsa20.rs`: the sixteen `u32`
state words, each kept below `2^32`. -/
structure SalsaState where
  x0 : Nat
  x1 : Nat
  x2 : Nat
  x3 : Nat
  x4 : Nat
  x5 : Nat
  x6 : Nat
  x7 : Nat
  x8 : Nat
  x9 : Nat
  x10 : Nat
  x11 : Nat
  x12 : Nat
  x13 : Nat
  x14 : Nat
  x15 : Nat
  deriving DecidableEq, Repr

/-- Wrapping `u32` addition (`plus` of `src/crypto/salsa20.rs`). -/
def add32 (a b : Nat) : Nat := (a + b) % 4294967296

/-- `u32::rotate_left` for values below `2^32` (`rotate` of the source): the
shifted-out high bits land in the low positions, written arithmetically. -/
def rotl32 (v c : Nat) : Nat :=
  v * 2 ^ c % 4294967296 + v / 2 ^ (32 - c)

/-- Little-endian byte encoding of a `u32` (`u32_to_u8_little`). -/
def le32 (w : Nat) : List Nat :=
  [w % 256, w / 256 % 256, w / 65536 % 256, w / 16777216 % 256]

/-- Little-endian `u32` from four bytes (`u8_to_u32_little`). -/
def leWord (a b c d : Nat) : Nat :=
  a % 256 + b % 256 * 256 + c % 256 * 65536 + d % 256 * 16777216

/-- One doubleround of `salsa20_word_to_byte` (the body of its loop:
a column round followed by a row round). -/
def salsaDoubleRound (s : SalsaState) : SalsaState :=
  let x0 := s.x0
  let x1 := s.x1
  let x2 := s.x2
  let x3 := s.x3
  let x4 := s.x4
  let x5 := s.x5
  let x6 := s.x6
  let x7 := s.x7
  let x8 := s.x8
  let x9 := s.x9
  let x10 := s.x10
  let x11 := s.x11
  let x12 := s.x12
  let x13 := s.x13
  let x14 := s.x14
  let x15 := s.x15
  let x4 := x4 ^^^ rotl32 (add32 x0 x12) 7
  let x8 := x8 ^^^ rotl32 (add32 x4 x0) 9
  let x12 := x12 ^^^ rotl32 (add32 x8 x4) 13
  let x0 := x0 ^^^ rotl32 (add32 x12 x8) 18
  let x9 := x9 ^^^ rotl32 (add32 x5 x1) 7
  let x13 := x13 ^^^ rotl32 (add32 x9 x5) 9
  let x1 := x1 ^^^ rotl32 (add32 x13 x9) 13
  let x5 := x5 ^^^ rotl32 (add32 x1 x13) 18
  let x14 := x14 ^^^ rotl32 (add32 x10 x6) 7
  let x2 := x2 ^^^ rotl32 (add32 x14 x10) 9
  let x6 := x6 ^^^ rotl32 (add32 x2 x14) 13
  let x10 := x10 ^^^ rotl32 (add32 x6 x2) 18
  let x3 := x3 ^^^ rotl32 (add32 x15 x11) 7
  let x7 := x7 ^^^ rotl32 (add32 x3 x15) 9
  let x11 := x11 ^^^ rotl32 (add32 x7 x3) 13
  let x15 := x15 ^^^ rotl32 (add32 x11 x7) 18
  let x1 := x1 ^^^ rotl32 (add32 x0 x3) 7
  let x2 := x2 ^^^ rotl32 (add32 x1 x0) 9
  let x3 := x3 ^^^ rotl32 (add32 x2 x1) 13
  let x0 := x0 ^^^ rotl32 (add32 x3 x2) 18
  let x6 := x6 ^^^ rotl32 (add32 x5 x4) 7
  let x7 := x7 ^^^ rotl32 (add32 x6 x5) 9
  let x4 := x4 ^^^ rotl32 (add32 x7 x6) 13
  let x5 := x5 ^^^ rotl32 (add32 x4 x7) 18
  let x11 := x11 ^^^ rotl32 (add32 x10 x9) 7
  let x8 := x8 ^^^ rotl32 (add32 x11 x10) 9
  let x9 := x9 ^^^ rotl32 (add32 x8 x11) 13
  let x10 := x10 ^^^ rotl32 (add32 x9 x8) 18
  let x12 := x12 ^^^ rotl32 (add32 x15 x14) 7
  let x13 := x13 ^^^ rotl32 (add32 x12 x15) 9
  let x14 := x14 ^^^ rotl32 (add32 x13 x12) 13
  let x15 := x15 ^^^ rotl32 (add32 x14 x13) 18
  ⟨x0, x1, x2, x3, x4, x5, x6, x7, x8, x9, x10, x11, x12, x13, x14, x15⟩

/-- Embeds `salsa20_word_to_byte`: four doublerounds
(`for _ in (0..8).step_by(2)`) followed by the feed-forward addition of the
input state, serialized little-endian. -/
def salsa20WordToByte (input : SalsaState) : List Nat :=
  let x := salsaDoubleRound (salsaDoubleRound (salsaDoubleRound (salsaDoubleRound input)))
  le32 (add32 x.x0 input.x0) ++ le32 (add32 x.x1 input.x1) ++
  le32 (add32 x.x2 input.x2) ++ le32 (add32 x.x3 input.x3) ++
  le32 (add32 x.x4 input.x4) ++ le32 (add32 x.x5 input.x5) ++
  le32 (add32 x.x6 input.x6) ++ le32 (add32 x.x7 input.x7) ++
  le32 (add32 x.x8 input.x8) ++ le32 (add32 x.x9 input.x9) ++
  le32 (add32 x.x10 input.x10) ++ le32 (add32 x.x11 input.x11) ++
  le32 (add32 x.x12 input.x12) ++ le32 (add32 x.x13 input.x13) ++
  le32 (add32 x.x14 input.x14) ++ le32 (add32 x.x15 input.x15)

/-- Block-counter increment of `salsa20_encrypt_bytes`: `input[8] += 1`
wrapping, carrying into `input[9]` when it wraps to zero. -/
def salsaIncCounter (s : SalsaState) : SalsaState :=
  let c := (s.x8 + 1) % 4294967296
  if c = 0 then { s with x8 := c, x9 := (s.x9 + 1) % 4294967296 }
  else { s with x8 := c }

/-- Chunk loop of `salsa20_encrypt_bytes` (`src/crypto/salsa20.rs` lines
150-171): XOR up to 64 message bytes with one keystream block, advance the
counter and continue on the remainder. -/
def salsaChunks (s : SalsaState) (m : List Nat) : List Nat :=
  let out := salsa20WordToByte s
  if m.length ≤ 64 then
    List.zipWith (fun a b => a ^^^ b) m out
  else
    List.zipWith (fun a b => a ^^^ b) (m.take 64) out ++
      salsaChunks (salsaIncCounter s) (m.drop 64)
termination_by m.length
decreasing_by
  simp only [List.length_drop]
  omega

/-- Embeds `salsa20_encrypt_bytes` (empty input returns at once). Decryption
(`salsa20_decrypt_bytes`) is the very same function. -/
def salsa20EncryptBytes (s : SalsaState) (m : List Nat) : List Nat :=
  if m.isEmpty then [] else salsaChunks s m

/-- Embeds `salsa20_key_setup` with `kbits = 128` followed by
`salsa20_iv_setup`, as performed by `Salsa20Encryptor::new`: the sixteen key
bytes fill words 1-4 and 11-14, the `tau` constants fill words 0, 5, 10, 15,
the nonce fills words 6-7 and the counter words 8-9 start at zero. -/
def salsa20Init (key nonce : List Nat) : SalsaState :=
  let k := fun i => key.getD i 0
  let n := fun i => nonce.getD i 0
  { x0 := 0x61707865
    x1 := leWord (k 0) (k 1) (k 2) (k 3)
    x2 := leWord (k 4) (k 5) (k 6) (k 7)
    x3 := leWord (k 8) (k 9) (k 10) (k 11)
    x4 := leWord (k 12) (k 13) (k 14) (k 15)
    x5 := 0x3120646e
    x6 := leWord (n 0) (n 1) (n 2) (n 3)
    x7 := leWord (n 4) (n 5) (n 6) (n 7)
    x8 := 0
    x9 := 0
    x10 := 0x79622d36
    x11 := leWord (k 0) (k 1) (k 2) (k 3)
    x12 := leWord (k 4) (k 5) (k 6) (k 7)
    x13 := leWord (k 8) (k 9) (k 10) (k 11)
    x14 := leWord (k 12) (k 13) (k 14) (k 15)
    x15 := 0x6b206574 }

/-- An encryptor as handed out by `get_encryptor`: both operations may fail,
`ZdbError.panicked` standing for a Rust panic. -/
structure Cipher where
  encrypt : List Nat → Except ZdbError (List Nat)
  decrypt : List Nat → Except ZdbError (List Nat)

/-- Embeds `get_encryptor` of `src/crypto/encryption.rs`. `NoEncryption`
copies its input; `SimpleEncryptor` divides by `key.len()` and so panics on a
non-empty buffer with an empty key; `Salsa20Encryptor::new` asserts a key of
at least 16 bytes and a nonce of at least 8. -/
def getEncryptor (method : EncryptionMethod) (key nonce : List Nat) :
    Except ZdbError Cipher :=
  match method with
  | .noEnc =>
    .ok { encrypt := fun m => .ok m, decrypt := fun m => .ok m }
  | .simple =>
    .ok
      { encrypt := fun m =>
          if key.isEmpty ∧ ¬m.isEmpty then .error (.panicked "attempt to calculate the remainder with a divisor of zero")
          else .ok (simpleEncrypt key m)
        decrypt := fun m =>
          if key.isEmpty ∧ ¬m.isEmpty then .error (.panicked "attempt to calculate the remainder with a divisor of zero")
          else .ok (simpleDecrypt key m) }
  | .salsa20 =>
    if key.length < 16 then .error (.panicked "Key buffer too small")
    else if nonce.length < 8 then .error (.panicked "IV must be at least 8 bytes")
    else
      .ok
        { encrypt := fun m => .ok (salsa20EncryptBytes (salsa20Init key nonce) m)
          decrypt := fun m => .ok (salsa20EncryptBytes (salsa20Init key nonce) m) }

/-- External crate functions used by the storage layer: the non-trivial
compression codecs (`rust_lzo`, `flate2`, `lzma_rs`, `bzip2`, `lz4`), the
`ripemd128` digest and the encoding/collation callbacks, passed in as
parameters. -/
structure Externals where
  compress : CompressionMethod → List Nat → List Nat
  decompress : CompressionMethod → List Nat → Nat → Except ZdbError (List Nat)
  ripemd : List Nat → List Nat

/-- Embeds `get_compressor(...).compress`: `NoCompression` is a passthrough,
the other methods call their external crates. -/
def extCompress (ext : Externals) : CompressionMethod → List Nat → List Nat
  | .noComp, d => d
  | m, d => ext.compress m d

/-- Embeds `get_compressor(...).decompress`: `NoCompression` is a passthrough,
the other methods call their external crates. -/
def extDecompress (ext : Externals) :
    CompressionMethod → List Nat → Nat → Except ZdbError (List Nat)
  | .noComp, d, _ => .ok d
  | m, d, orig => ext.decompress m d orig

/-- Embeds `StorageBlock::decode_block` (`src/storage/storage_block.rs` lines
56-102): parse the 8-byte inner header, decrypt the `encrypted_data_length`
prefix when an encryption method is set (deriving a key from the CRC when the
crypto key is empty), check the Adler-32 against the compressed bytes in that
case, decompress, and otherwise check the Adler-32 against the plaintext. -/
def decodeBlock (ext : Externals) (blockData cryptoKey : List Nat)
    (originalDataLength : Nat) : Except ZdbError (List Nat) := do
  let (compressionEncryption, r1) ← readU8 blockData
  let (encryptedDataLength, r2) ← readU8 r1
  let (_reserved, r3) ← readU16BE r2
  let (dataCrc, rawData) ← readU32BE r3
  let encryptionMethod ← EncryptionMethod.tryFrom (compressionEncryption / 16)
  let rawData ←
    if encryptionMethod ≠ .noEnc then do
      let key := if cryptoKey.isEmpty then ext.ripemd (be32 dataCrc) else cryptoKey
      let decryptor ← getEncryptor encryptionMethod key (List.replicate 8 0)
      if rawData.length < encryptedDataLength then
        throw (.panicked "range end index out of range for slice")
      else do
        let output ← decryptor.decrypt (rawData.take encryptedDataLength)
        pure (output ++ rawData.drop encryptedDataLength)
    else pure rawData
  let crcIsForCompressedData := encryptionMethod ≠ .noEnc
  if crcIsForCompressedData then
    let alderCrc := adler32 rawData
    if dataCrc ≠ alderCrc then
      throw (.crcMismatch dataCrc alderCrc)
  let compressionMethod ← CompressionMethod.tryFrom (compressionEncryption % 16)
  let data ← extDecompress ext compressionMethod rawData originalDataLength
  if ¬crcIsForCompressedData then
    let alderCrc := adler32 data
    if dataCrc ≠ alderCrc then
      throw (.crcMismatch dataCrc alderCrc)
  return data

/-- Embeds `StorageBlock::from_reader_v3` (`src/storage/storage_block.rs`
lines 104-109): read the two big-endian `u32` length fields, take that many
block bytes and decode them under the meta crypto key. Returns the decoded
plaintext together with the unread remainder of the stream. -/
def fromReaderV3 (ext : Externals) (stream cryptoKey : List Nat) :
    Except ZdbError (List Nat × List Nat) := do
  let (originalDataLength, s1) ← readU32BE stream
  let (dataBlockLength, s2) ← readU32BE s1
  let (rawData, rest) ← readBytesN dataBlockLength s2
  let data ← decodeBlock ext rawData cryptoKey originalDataLength
  return (data, rest)

/-- The condition under which `StorageBlock::to_writer` actually encrypts:
`data.len() >= min(32, compressed.len())` and the method is not `None`. -/
def willEncrypt (ext : Externals) (data : List Nat) (cm : CompressionMethod)
    (em : EncryptionMethod) : Bool :=
  decide (min 32 (extCompress ext cm data).length ≤ data.length) &&
    decide (em ≠ EncryptionMethod.noEnc)

/-- Embeds `StorageBlock::to_writer` (`src/storage/storage_block.rs` lines
111-149), returning the byte stream it writes: the two `u32` length fields,
the method byte `compression | encryption << 4`, the encrypted prefix length,
two reserved bytes, the Adler-32 (over the compressed bytes when encrypting,
over the plaintext otherwise) and the body with its first
`min(32, compressed.len())` bytes encrypted in place when encryption applies. -/
def toWriter (ext : Externals) (data cryptoKey : List Nat)
    (compressionMethod : CompressionMethod) (encryptionMethod : EncryptionMethod) :
    Except ZdbError (List Nat) := do
  let encryptor ← getEncryptor encryptionMethod cryptoKey (List.replicate 8 0)
  let compressed := extCompress ext compressionMethod data
  let encryptedDataLength := min 32 compressed.length
  let dataCrc :=
    if willEncrypt ext data compressionMethod encryptionMethod then adler32 compressed
    else adler32 data
  if willEncrypt ext data compressionMethod encryptionMethod then do
    let encryptedData ← encryptor.encrypt (compressed.take encryptedDataLength)
    let body := encryptedData ++ compressed.drop encryptedDataLength
    return be32 data.length ++ be32 (body.length + 8) ++
      [compressionMethod.toNat + encryptionMethod.toNat * 16, encryptedDataLength % 256] ++
      be16 0 ++ be32 dataCrc ++ body
  else
    return be32 data.length ++ be32 (compressed.length + 8) ++
      [compressionMethod.toNat, 0] ++ be16 0 ++ be32 dataCrc ++ compressed

/-- Embeds `ZdbVersion` (V1, V2, V3) of `src/storage/meta_unit.rs`. -/
inductive ZdbVersion where
  | v1 | v2 | v3
  deriving DecidableEq, Repr

/-- The slice of `MetaUnit` state consulted by the index parsers: the format
generation and whether keys are stored as UTF-16. -/
structure MetaLite where
  version : ZdbVersion
  isUtf16 : Bool
  deriving DecidableEq, Repr

/-- Embeds `KeyBlockIndex` of `src/storage/key_block_index.rs`. Entry numbers
are modelled as `Nat`: the source `EntryNo` is an `i64`, but every value
assigned here is a non-negative running index. -/
structure KeyBlockIndex where
  entryCountInBlock : Nat
  firstKey : String
  lastKey : String
  firstSortKey : List Nat
  lastSortKey : List Nat
  blockLength : Nat
  rawDataLength : Nat
  blockOffsetInKeyUnit : Nat
  firstEntryNoInBlock : Nat
  deriving DecidableEq, Repr

/-- Per-key byte overhead of `ZDBBuilder::prepare_key_block_index_unit`:
`key.len() + extra_size` with `extra_size = 1 + 8` (ending zero plus record
offset); `key.len()` is the UTF-8 byte length of the Rust `String`. -/
def keyOverheadLen (e : ZdbRecord) : Nat :=
  e.key.utf8ByteSize + 1 + 8

/-- Sum of the per-key overheads of a run of records. -/
def sumOverhead (l : List ZdbRecord) : Nat :=
  (l.map keyOverheadLen).sum

/-- Inner loop of `ZDBBuilder::prepare_key_block_index_unit`
(`src/builder/zdb_builder.rs` lines 346-354) after its first iteration:
keep taking entries while `block_size + key_len` stays within the budget,
returning the taken run and the remainder. -/
def takeKeyBlock (preferredSize : Nat) : Nat → List ZdbRecord →
    List ZdbRecord × List ZdbRecord
  | _, [] => ([], [])
  | blockSize, e :: rest =>
    let keyLen := keyOverheadLen e
    if preferredSize < blockSize + keyLen then ([], e :: rest)
    else
      let p := takeKeyBlock preferredSize (blockSize + keyLen) rest
      (e :: p.1, p.2)

/-- Embeds the outer loop of `ZDBBuilder::prepare_key_block_index_unit`
(`src/builder/zdb_builder.rs` lines 339-366): each iteration opens a block at
the current entry (that first key is always taken, matching `i > start`),
runs the inner loop, and records `first_key`, `last_key`,
`entry_count_in_block = i - start`, `block_length = block_size` and
`first_entry_no_in_block`; the remaining fields keep their defaults. -/
def planKeyBlocks (preferredSize firstNo : Nat) (entries : List ZdbRecord) :
    List KeyBlockIndex :=
  match entries with
  | [] => []
  | e :: rest =>
    let p := takeKeyBlock preferredSize (keyOverheadLen e) rest
    { entryCountInBlock := p.1.length + 1
      firstKey := e.key
      lastKey := (p.1.getLastD e).key
      firstSortKey := []
      lastSortKey := []
      blockLength := keyOverheadLen e + sumOverhead p.1
      rawDataLength := 0
      blockOffsetInKeyUnit := 0
      firstEntryNoInBlock := firstNo } ::
      planKeyBlocks preferredSize (firstNo + (p.1.length + 1)) p.2
termination_by entries.length
decreasing_by
  have h : ∀ (s : Nat) (l : List ZdbRecord),
      (takeKeyBlock preferredSize s l).2.length ≤ l.length := by
    intro s l
    induction l generalizing s with
    | nil => simp [takeKeyBlock]
    | cons x xs ih =>
      simp only [takeKeyBlock]
      split
      · simp
      · exact le_trans (ih _) (Nat.le_succ _)
  have h2 := h (keyOverheadLen e) rest
  simp only [List.length_cons]
  omega

/-- Reads one key field (`read_key` of `src/storage/key_block_index.rs`):
a `u16` length for V3/V2 or a `u8` for V1, doubled for UTF-16, followed by the
key bytes and the version-dependent terminating zero, which is truncated off. -/
def readKeyBytes (meta : MetaLite) (l : List Nat) :
    Except ZdbError (List Nat × List Nat) := do
  let (len0, r1) ←
    match meta.version with
    | .v3 | .v2 => readU16BE l
    | .v1 => readU8 l
  let terminatingZero :=
    if meta.version = ZdbVersion.v1 then 0
    else if meta.isUtf16 then 2 else 1
  let len := if meta.isUtf16 then len0 * 2 else len0
  let (buffer, r2) ← readBytesN (len + terminatingZero) r1
  return (buffer.take len, r2)

/-- Embeds `KeyBlockIndex::from_reader` (`src/storage/key_block_index.rs`
lines 65-102). The external sort-key synthesis (`get_sort_key`, ICU-backed
for V3) and text decoding (`decode_bytes_to_string`, encoding_rs-backed) are
the parameters `sortKey` and `decodeStr`. -/
def keyBlockIndexFromReader (meta : MetaLite)
    (sortKey : List Nat → Except ZdbError (List Nat))
    (decodeStr : List Nat → Except ZdbError String)
    (l : List Nat) : Except ZdbError (KeyBlockIndex × List Nat) := do
  let (entryCount, r1) ←
    match meta.version with
    | .v3 | .v1 => readU32BE l
    | .v2 => readU64BE l
  let (firstKeyBytes, r2) ← readKeyBytes meta r1
  let (lastKeyBytes, r3) ← readKeyBytes meta r2
  let (blockLength, r4) ←
    match meta.version with
    | .v3 | .v1 => readU32BE r3
    | .v2 => readU64BE r3
  let (rawDataLength, r5) ←
    match meta.version with
    | .v3 | .v1 => readU32BE r4
    | .v2 => readU64BE r4
  let firstSortKey ← sortKey firstKeyBytes
  let lastSortKey ← sortKey lastKeyBytes
  let firstKey ← decodeStr firstKeyBytes
  let lastKey ← decodeStr lastKeyBytes
  return ({ entryCountInBlock := entryCount
            firstKey := firstKey
            lastKey := lastKey
            firstSortKey := firstSortKey
            lastSortKey := lastSortKey
            blockLength := blockLength
            rawDataLength := rawDataLength
            blockOffsetInKeyUnit := 0
            firstEntryNoInBlock := 0 }, r5)

/-- The parse loop at the top of
`KeyBlockIndexUnit::read_block_index_entries`: `block_count` sequential
`KeyBlockIndex::from_reader` calls over one cursor. -/
def parseKeyBlockIndexes (meta : MetaLite)
    (sortKey : List Nat → Except ZdbError (List Nat))
    (decodeStr : List Nat → Except ZdbError String) :
    Nat → List Nat → Except ZdbError (List KeyBlockIndex × List Nat)
  | 0, l => .ok ([], l)
  | n + 1, l => do
    let (entry, r) ← keyBlockIndexFromReader meta sortKey decodeStr l
    let (entries, r2) ← parseKeyBlockIndexes meta sortKey decodeStr n r
    return (entry :: entries, r2)

/-- The numbering loop of `KeyBlockIndexUnit::read_block_index_entries`
(`src/storage/key_block_index_unit.rs` lines 121-128): walk the parsed
entries accumulating `first_entry_no_in_block` from `entry_count_in_block`
and `block_offset_in_key_unit` from `block_length`. -/
def assignKeyEntryNos (firstNo offsetInUnit : Nat) :
    List KeyBlockIndex → List KeyBlockIndex
  | [] => []
  | b :: rest =>
    { b with firstEntryNoInBlock := firstNo, blockOffsetInKeyUnit := offsetInUnit } ::
      assignKeyEntryNos (firstNo + b.entryCountInBlock) (offsetInUnit + b.blockLength) rest

/-- Embeds `KeyBlockIndexUnit::read_block_index_entries`
(`src/storage/key_block_index_unit.rs` lines 113-130): parse `block_count`
entries, then fill the two running-sum fields; the returned total is the
final value of the `first_entry_no_in_block` accumulator. -/
def readKeyBlockIndexEntries (meta : MetaLite)
    (sortKey : List Nat → Except ZdbError (List Nat))
    (decodeStr : List Nat → Except ZdbError String)
    (blockData : List Nat) (blockCount : Nat) :
    Except ZdbError (List KeyBlockIndex × Nat) := do
  let (entries, _) ← parseKeyBlockIndexes meta sortKey decodeStr blockCount blockData
  return (assignKeyEntryNos 0 0 entries, (entries.map (·.entryCountInBlock)).sum)

/-- Embeds `ContentBlockIndex` of `src/storage/content_block_index_unit.rs`. -/
structure ContentBlockIndex where
  blockOriginalLength : Nat
  blockCompressedLength : Nat
  blockOffsetInSource : Nat
  blockOffsetInUnit : Nat
  deriving DecidableEq, Repr

/-- Embeds `ContentBlockIndex::from_reader`
(`src/storage/content_block_index_unit.rs` lines 43-53): compressed length
then original length, `u64` for V3/V2 and `u32` for V1; offsets start at 0. -/
def contentBlockIndexFromReader (version : ZdbVersion) (l : List Nat) :
    Except ZdbError (ContentBlockIndex × List Nat) := do
  let (blockCompressedLength, r1) ←
    match version with
    | .v3 | .v2 => readU64BE l
    | .v1 => readU32BE l
  let (blockOriginalLength, r2) ←
    match version with
    | .v3 | .v2 => readU64BE r1
    | .v1 => readU32BE r1
  return ({ blockOriginalLength := blockOriginalLength
            blockCompressedLength := blockCompressedLength
            blockOffsetInSource := 0
            blockOffsetInUnit := 0 }, r2)

/-- The parse loop at the top of
`ContentBlockIndexUnit::read_block_index_entries`. -/
def parseContentBlockIndexes (version : ZdbVersion) :
    Nat → List Nat → Except ZdbError (List ContentBlockIndex × List Nat)
  | 0, l => .ok ([], l)
  | n + 1, l => do
    let (entry, r) ← contentBlockIndexFromReader version l
    let (entries, r2) ← parseContentBlockIndexes version n r
    return (entry :: entries, r2)

/-- The offset loop of `ContentBlockIndexUnit::read_block_index_entries`
(`src/storage/content_block_index_unit.rs` lines 65-72): accumulate
`block_offset_in_source` from the original lengths and
`block_offset_in_unit` from the compressed lengths. -/
def assignContentOffsets (offsetInSource offsetInUnit : Nat) :
    List ContentBlockIndex → List ContentBlockIndex
  | [] => []
  | b :: rest =>
    { b with blockOffsetInSource := offsetInSource, blockOffsetInUnit := offsetInUnit } ::
      assignContentOffsets (offsetInSource + b.blockOriginalLength)
        (offsetInUnit + b.blockCompressedLength) rest

/-- Embeds `ContentBlockIndexUnit::read_block_index_entries`
(`src/storage/content_block_index_unit.rs` lines 57-74): parse `block_count`
entries, then fill the two offset fields; the returned total is the final
value of the `block_offset_in_source` accumulator. -/
def readContentBlockIndexEntries (version : ZdbVersion)
    (blockData : List Nat) (blockCount : Nat) :
    Except ZdbError (List ContentBlockIndex × Nat) := do
  let (entries, _) ← parseContentBlockIndexes version blockCount blockData
  return (assignContentOffsets 0 0 entries,
    (entries.map (·.blockOriginalLength)).sum)

/-- Embeds `LINK_PREFIX` of `src/readers/zdb_reader.rs`: the ASCII bytes of
the `@@@LINK=` marker. -/
def LINK_MARKER : List Nat := [0x40, 0x40, 0x40, 0x4C, 0x49, 0x4E, 0x4B, 0x3D]

/-- Embeds `LINK_PREFIX_W`: the UTF-16LE byte form of the marker. -/
def LINK_MARKER_W : List Nat :=
  [0x40, 0x00, 0x40, 0x00, 0x40, 0x00, 0x4C, 0x00,
   0x49, 0x00, 0x4E, 0x00, 0x4B, 0x00, 0x3D, 0x00]

/-- The `starts_with(LINK_PREFIX) || starts_with(LINK_PREFIX_W)` test of
`resolve_link_target_with_visited`. -/
def isLinkData (bin : List Nat) : Bool :=
  LINK_MARKER.isPrefixOf bin || LINK_MARKER_W.isPrefixOf bin

/-- Embeds the byte-index slice `&s[k..]` of a Rust string on its character
list: consume UTF-8 widths until exactly `k` bytes are dropped; running past
the end or landing inside a character is the source's slice panic. -/
def byteSliceFrom (k : Nat) (cs : List Char) : Except ZdbError (List Char) :=
  if k = 0 then .ok cs
  else
    match cs with
    | [] => .error (.panicked "byte index is out of bounds")
    | c :: rest =>
      if c.utf8Size ≤ k then byteSliceFrom (k - c.utf8Size) rest
      else .error (.panicked "byte index is not a char boundary")

/-- Rust's `char::is_whitespace` (the Unicode `White_Space` property), as
`str::trim_end` uses it. -/
def rustIsWhitespace (c : Char) : Bool :=
  (decide (9 ≤ c.toNat) && decide (c.toNat ≤ 13)) || decide (c.toNat = 32) ||
  decide (c.toNat = 133) || decide (c.toNat = 160) || decide (c.toNat = 5760) ||
  (decide (8192 ≤ c.toNat) && decide (c.toNat ≤ 8202)) || decide (c.toNat = 8232) ||
  decide (c.toNat = 8233) || decide (c.toNat = 8239) || decide (c.toNat = 8287) ||
  decide (c.toNat = 12288)

/-- Rust's `str::trim_end`: remove the trailing `char::is_whitespace`
characters. -/
def rustTrimEnd (cs : List Char) : List Char :=
  (cs.reverse.dropWhile rustIsWhitespace).reverse

/-- A `KeyIndex` as consumed by link resolution: its entry number (a valid
index into the `n` entries of the file) and its key. -/
structure KeyIndexM (n : Nat) where
  entryNo : Fin n
  key : String
  deriving DecidableEq

/-- The reader operations invoked by `resolve_link_target_with_visited`,
abstracted over the rest of `ZdbReader`: `getDataRaw` is
`get_data(entry, false)`, `findBest` is
`find_first_match(key, false, false, true)`, `getIndex` is `get_index`, and
`decodeStr` is `decode_bytes_to_string` under the meta encoding. -/
structure LinkEnv (n : Nat) where
  getDataRaw : Fin n → Except ZdbError (List Nat)
  findBest : String → Except ZdbError (Option (KeyIndexM n))
  getIndex : Fin n → Except ZdbError (KeyIndexM n)
  decodeStr : List Nat → Except ZdbError String

/-- The `entry_no: key` lines accumulated by the loop over the visited set in
`resolve_link_target_with_visited`, each entry fetched through `get_index`,
whose failure propagates. -/
def indexLines {n : Nat} (env : LinkEnv n) : List (Fin n) → Except ZdbError String
  | [] => .ok ""
  | x :: xs => do
    let index ← env.getIndex x
    let rest ← indexLines env xs
    return toString index.entryNo.val ++ ": " ++ index.key ++ "\n" ++ rest

/-- The cyclic-link error message built by
`resolve_link_target_with_visited`: one `entry_no: key` line per visited
entry followed by the current entry. The source iterates a `HashSet` in
unspecified order; the model iterates the visited set in ascending order. -/
def cyclicMessage {n : Nat} (env : LinkEnv n) (current : KeyIndexM n)
    (visited : Finset (Fin n)) : Except ZdbError String := do
  let lines ← indexLines env (visited.sort (· ≤ ·))
  return "Cyclic link detected, entry links:\n" ++ lines ++
    toString current.entryNo.val ++ ": " ++ current.key ++ "\n"

/-- Embeds `ZdbReader::resolve_link_target_with_visited`
(`src/readers/zdb_reader.rs` lines 253-297): fail with `InvalidDataFormat` if
the current entry was already visited, otherwise record it, fetch its raw
content, return it if it is not a link, and otherwise decode the content,
strip the marker with the byte-index slice `content[LINK_PREFIX.len()..]` (a
panic when byte 8 is not a char boundary of the decoded string), trim
trailing Unicode whitespace as `trim_end` does, look the target up with
`best_match`, failing with `InvalidDataFormat` on a miss or a self-link and
following the target otherwise. Recursion is on the number of entries not yet
visited, so the model cannot hang; the slice panic is a reachable error. -/
def resolveLinkTargetWithVisited {n : Nat} (env : LinkEnv n)
    (current : KeyIndexM n) (visited : Finset (Fin n)) :
    Except ZdbError (KeyIndexM n) :=
  if current.entryNo ∈ visited then do
    let msg ← cyclicMessage env current visited
    throw (.invalidDataFormat msg)
  else do
    let binContent ← env.getDataRaw current.entryNo
    if isLinkData binContent then do
      let content ← env.decodeStr binContent
      let sliced ← byteSliceFrom 8 content.data
      let targetEntryKey := String.mk (rustTrimEnd sliced)
      let targetEntryIndex ← env.findBest targetEntryKey
      match targetEntryIndex with
      | some target =>
        if current.entryNo = target.entryNo then
          throw (.invalidDataFormat
            ("Link to self, entry:" ++ current.key ++ ", target:" ++ targetEntryKey))
        else
          resolveLinkTargetWithVisited env target (insert current.entryNo visited)
      | none =>
        throw (.invalidDataFormat ("Can't resolve link target: " ++ targetEntryKey))
    else
      pure current
termination_by n - visited.card
decreasing_by
  have hmem : current.entryNo ∉ visited := by assumption
  have hcard : (insert current.entryNo visited).card = visited.card + 1 :=
    Finset.card_insert_of_not_mem hmem
  have hle : (insert current.entryNo visited).card ≤ n := by
    calc (insert current.entryNo visited).card
        ≤ (Finset.univ : Finset (Fin n)).card := Finset.card_le_card (Finset.subset_univ _)
      _ = n := by simp
  omega

/-- A one-byte record over the one-byte source file `[7]`, used as the
concrete failing input for the loader bug. -/
def sampleRecordC1 : ZdbRecord :=
  { key := "a", contentOffsetInSource := 0, position := 0, content := "",
    contentLen := 1, lineNo := 1 }

/-- A V3 non-UTF-16 meta used as concrete input for the index parser. -/
def c6Meta : MetaLite := { version := .v3, isUtf16 := false }

/-- Trivial stand-in for the external sort-key synthesis. -/
def c6SortKey : List Nat → Except ZdbError (List Nat) := fun _ => .ok []

/-- Trivial stand-in for the external text decoder. -/
def c6DecodeStr : List Nat → Except ZdbError String := fun _ => .ok ""

/-- Wire bytes of two V3 key-block-index entries: counts 1 and 2, one-byte
keys, block lengths 5 and 7. -/
def c6BlockData : List Nat :=
  [0, 0, 0, 1, 0, 1, 97, 0, 0, 1, 97, 0, 0, 0, 0, 5, 0, 0, 0, 9,
   0, 0, 0, 2, 0, 1, 98, 0, 0, 1, 98, 0, 0, 0, 0, 7, 0, 0, 0, 9]

/-- The directory materialized from `c6BlockData`. -/
def c6Entries : List KeyBlockIndex :=
  (((readKeyBlockIndexEntries c6Meta c6SortKey c6DecodeStr c6BlockData 2).toOption).map
    Prod.fst).getD []

/-- Wire bytes of two V3 content-block-index entries: compressed/original
length pairs (3, 10) and (4, 20). -/
def c6ContentData : List Nat :=
  [0, 0, 0, 0, 0, 0, 0, 3, 0, 0, 0, 0, 0, 0, 0, 10,
   0, 0, 0, 0, 0, 0, 0, 4, 0, 0, 0, 0, 0, 0, 0, 20]

/-- The content directory materialized from `c6ContentData`. -/
def c6ContentEntries : List ContentBlockIndex :=
  (((readContentBlockIndexEntries ZdbVersion.v3 c6ContentData 2).toOption).map
    Prod.fst).getD []

/-- Three concrete records used as input to the key-block planner. -/
def c5Entries : List ZdbRecord :=
  [{ key := "aa", contentOffsetInSource := 0, position := 0, content := "",
     contentLen := 0, lineNo := 1 },
   { key := "bb", contentOffsetInSource := 0, position := 0, content := "",
     contentLen := 0, lineNo := 2 },
   { key := "cc", contentOffsetInSource := 0, position := 0, content := "",
     contentLen := 0, lineNo := 3 }]

/-- A two-entry UTF-16LE reader environment exhibiting the slice panic:
entry `a` holds a well-formed UTF-16LE link `@@@LINK=b`; entry `b`'s raw
content carries the UTF-8 marker bytes followed by UTF-16LE `a` (a link back
to `a`), so the link branch is taken on the raw bytes, but the UTF-16LE
decode of the whole content is `䁀䱀义㵋a`, whose byte 8 falls inside the
third (three-byte) character. -/
def c7BugEnv : LinkEnv 2 :=
  { getDataRaw := fun i =>
      .ok (if i.val = 0 then LINK_MARKER_W ++ [0x62, 0x00]
           else LINK_MARKER ++ [0x61, 0x00])
    findBest := fun s => .ok (if s = "b" then some ⟨1, "b"⟩ else none)
    getIndex := fun i => .ok (if i.val = 0 then ⟨0, "a"⟩ else ⟨1, "b"⟩)
    decodeStr := fun b =>
      .ok (if b = LINK_MARKER_W ++ [0x62, 0x00] then "@@@LINK=b"
           else "䁀䱀义㵋a") }

/-- Witness codec for the storage-block roundtrip: identity compression (as
`NoCompression`) with a constant `ripemd128`. -/
def c2Ext : Externals :=
  { compress := fun _ d => d
    decompress := fun _ d _ => .ok d
    ripemd := fun _ => List.replicate 16 0 }

/-- Witness 16-byte crypto key. -/
def c2Key : List Nat := List.replicate 16 7

theorem xor_lt_256 {a b : Nat} (ha : a < 256) (hb : b < 256) : a ^^^ b < 256 := by
  have h256 : (256 : Nat) = 2 ^ 8 := by norm_num
  rw [h256] at ha hb ⊢
  exact Nat.xor_lt_two_pow ha hb

theorem xor_unscramble (b k i l : Nat) :
    (((((b ^^^ k) ^^^ i) ^^^ l) ^^^ k) ^^^ i) ^^^ l = b := by
  apply Nat.eq_of_testBit_eq
  intro j
  simp only [Nat.testBit_xor]
  cases b.testBit j <;> cases k.testBit j <;> cases i.testBit j <;> cases l.testBit j <;> rfl

theorem swapNibbles_lt_256 (x : Nat) : swapNibbles x < 256 := by
  unfold swapNibbles
  omega

theorem swapNibbles_swapNibbles {x : Nat} (h : x < 256) :
    swapNibbles (swapNibbles x) = x := by
  unfold swapNibbles
  have h1 : x / 16 < 16 := by omega
  rw [Nat.mod_eq_of_lt h1]
  have h3 : (x % 16 * 16 + x / 16) % 16 = x / 16 := by omega
  have h4 : (x % 16 * 16 + x / 16) / 16 = x % 16 := by omega
  rw [h3, h4, Nat.mod_eq_of_lt (by omega : x % 16 < 16)]
  omega

theorem keyAt_lt_256 (key : List Nat) (hkey : key ≠ []) (hkb : ∀ b ∈ key, b < 256)
    (i : Nat) : keyAt key i < 256 := by
  have hlen : 0 < key.length := List.length_pos.mpr hkey
  have hmod : i % key.length < key.length := Nat.mod_lt _ hlen
  unfold keyAt
  rw [List.getD_eq_getElem _ _ hmod]
  exact hkb _ (List.getElem_mem hmod)

theorem simpleDecryptGo_encryptGo (key : List Nat) (hkey : key ≠ [])
    (hkb : ∀ b ∈ key, b < 256) :
    ∀ (input : List Nat) (i last : Nat), last < 256 → (∀ b ∈ input, b < 256) →
      simpleDecryptGo key i last (simpleEncryptGo key i last input) = input := by
  intro input
  induction input with
  | nil => intro i last _ _; rfl
  | cons b rest ih =>
    intro i last hlast hin
    have hb : b < 256 := hin b (by simp)
    have hbmod : b % 256 = b := Nat.mod_eq_of_lt hb
    have hz : ((b ^^^ keyAt key i) ^^^ i % 256) ^^^ last < 256 :=
      xor_lt_256 (xor_lt_256 (xor_lt_256 hb (keyAt_lt_256 key hkey hkb i))
        (Nat.mod_lt _ (by omega))) hlast
    have hc : swapNibbles (((b ^^^ keyAt key i) ^^^ i % 256) ^^^ last) < 256 :=
      swapNibbles_lt_256 _
    simp only [simpleEncryptGo, simpleDecryptGo, hbmod, Nat.mod_eq_of_lt hc]
    rw [swapNibbles_swapNibbles hz, xor_unscramble,
      ih (i + 1) _ hc fun x hx => hin x (by simp [hx])]

theorem simpleInplaceGo_eq_decryptGo (key : List Nat) :
    ∀ (input : List Nat) (i last : Nat),
      simpleInplaceGo key i last input = simpleDecryptGo key i last input := by
  intro input
  induction input with
  | nil => intro i last; rfl
  | cons b rest ih =>
    intro i last
    simp only [simpleInplaceGo, simpleDecryptGo]
    rw [ih]

theorem simpleEncryptGo_length (key : List Nat) :
    ∀ (input : List Nat) (i last : Nat),
      (simpleEncryptGo key i last input).length = input.length := by
  intro input
  induction input with
  | nil => intro i last; rfl
  | cons b rest ih =>
    intro i last
    simp only [simpleEncryptGo, List.length_cons]
    rw [ih]

/-- C10: for every non-empty key, `SimpleEncryptor::decrypt` inverts
`SimpleEncryptor::encrypt` on every byte buffer, and
`SimpleEncryptor::inplace_decrypt` computes the same result as
`SimpleEncryptor::decrypt` on the same bytes. -/
theorem simpleEncryptor_roundtrip (key input : List Nat) (hkey : key ≠ [])
    (hkeyBytes : ∀ b ∈ key, b < 256) (hinput : ∀ b ∈ input, b < 256) :
    simpleDecrypt key (simpleEncrypt key input) = input ∧
    ∀ data : List Nat, simpleInplaceDecrypt key data = simpleDecrypt key data := by
  constructor
  · unfold simpleDecrypt simpleEncrypt
    exact simpleDecryptGo_encryptGo key hkey hkeyBytes input 0 0x36 (by norm_num) hinput
  · intro data
    unfold simpleInplaceDecrypt simpleDecrypt
    exact simpleInplaceGo_eq_decryptGo key data 0 0x36

theorem simpleEncryptor_roundtrip_witness :
    ([1, 2] : List Nat) ≠ [] ∧ (∀ b ∈ ([1, 2] : List Nat), b < 256) ∧
    (∀ b ∈ ([5, 250] : List Nat), b < 256) ∧
    (simpleDecrypt [1, 2] (simpleEncrypt [1, 2] [5, 250]) = [5, 250] ∧
      ∀ data : List Nat, simpleInplaceDecrypt [1, 2] data = simpleDecrypt [1, 2] data) :=
  ⟨by decide, by decide, by decide,
    simpleEncryptor_roundtrip [1, 2] [5, 250] (by decide) (by decide) (by decide)⟩

/-- C9: `fast_hash_digest` splits a non-empty input at `ceil(len/2)` (the
first part length `(len + 1) / 2` is pinned as the ceiling by the two
arithmetic bounds) and emits the big-endian XXH64 (seed 0) of the first half,
followed by that of the second half exactly when the input is longer than one
byte. -/
theorem fastHash_two_half_structure (xxh64 : Nat → List Nat → Nat)
    (input : List Nat) (hne : input ≠ []) :
    fastHashDigest xxh64 input =
      (if 1 < input.length then
        .ok (be64 (xxh64 0 (input.take ((input.length + 1) / 2))) ++
          be64 (xxh64 0 (input.drop ((input.length + 1) / 2))))
      else .ok (be64 (xxh64 0 input))) ∧
    input.length ≤ 2 * ((input.length + 1) / 2) ∧
    2 * ((input.length + 1) / 2) ≤ input.length + 1 := by
  refine ⟨?_, by omega, by omega⟩
  unfold fastHashDigest
  rw [if_neg (by simp [hne])]
  by_cases h : 1 < input.length
  · simp [h]
  · have hpos : 0 < input.length := List.length_pos.mpr hne
    have hlen : input.length = 1 := by omega
    have htake : input.take ((input.length + 1) / 2) = input := by
      rw [hlen]
      exact List.take_of_length_le (by omega)
    simp [h, htake]

theorem fastHash_two_half_structure_witness :
    ([3, 4] : List Nat) ≠ [] ∧
    (fastHashDigest (fun _ l => l.length) [3, 4] =
      (if 1 < ([3, 4] : List Nat).length then
        .ok (be64 ((fun (_ : Nat) (l : List Nat) => l.length) 0
            (([3, 4] : List Nat).take ((([3, 4] : List Nat).length + 1) / 2))) ++
          be64 ((fun (_ : Nat) (l : List Nat) => l.length) 0
            (([3, 4] : List Nat).drop ((([3, 4] : List Nat).length + 1) / 2))))
      else .ok (be64 ((fun (_ : Nat) (l : List Nat) => l.length) 0 [3, 4]))) ∧
      ([3, 4] : List Nat).length ≤ 2 * ((([3, 4] : List Nat).length + 1) / 2) ∧
      2 * ((([3, 4] : List Nat).length + 1) / 2) ≤ ([3, 4] : List Nat).length + 1) :=
  ⟨by decide, fastHash_two_half_structure (fun _ l => l.length) [3, 4] (by decide)⟩

/-- C3 counterexample: the claim `crypto_key = fast_hash(password || uuid)`
fails at password `"a"` and uuid `"b"` (byte lists `[97]` and `[98]`): with a
non-empty password the builder hashes the password alone, whose fast hash is
8 bytes, while `fast_hash(password ++ uuid)` is 16 bytes — for every choice
of the underlying XXH64, here instantiated with the constant-zero hash. -/
theorem buildCryptoKey_not_hash_of_password_uuid :
    buildDbHeaderCryptoKey (fun _ _ => 0) [97] [98] ≠
      fastHashDigest (fun _ _ => 0) ([97] ++ [98]) := by
  intro h
  have h2 := congrArg Except.toOption h
  revert h2
  decide

/-- C3 amended: `build_db_header` sets the meta crypto key to
`fast_hash(uuid)` when the password is empty and to `fast_hash(password)`
otherwise; only in the empty-password case does this coincide with the
claimed `fast_hash(password || uuid)`. -/
theorem buildCryptoKey_cases (xxh64 : Nat → List Nat → Nat)
    (password uuid : List Nat) :
    buildDbHeaderCryptoKey xxh64 password uuid =
      (if password.isEmpty then fastHashDigest xxh64 uuid
       else fastHashDigest xxh64 password) ∧
    (password = [] →
      buildDbHeaderCryptoKey xxh64 password uuid =
        fastHashDigest xxh64 (password ++ uuid)) := by
  constructor
  · rfl
  · intro h
    subst h
    simp [buildDbHeaderCryptoKey]

theorem buildCryptoKey_cases_witness :
    (buildDbHeaderCryptoKey (fun _ _ => 0) [] [98] =
      (if ([] : List Nat).isEmpty then fastHashDigest (fun _ _ => 0) [98]
       else fastHashDigest (fun _ _ => 0) []) ∧
    (([] : List Nat) = [] →
      buildDbHeaderCryptoKey (fun _ _ => 0) [] [98] =
        fastHashDigest (fun _ _ => 0) ([] ++ [98]))) :=
  buildCryptoKey_cases (fun _ _ => 0) [] [98]

/-- C1 (code bug): `MDictSourceLoader::load_data` returns an empty byte
vector for every record, because it calls `read_exact` on a buffer of length
zero; in particular, at a record of content length 1 over the one-byte source
`[7]`, the loader yields `[]` although the record's source bytes are `[7]`,
so the builder cannot write (and the reader cannot return) the source
content. -/
theorem mdictLoadData_loses_content :
    (∀ (source : List Nat) (entry : ZdbRecord),
      mdictLoadData source entry = .ok []) ∧
    mdictLoadData [7] sampleRecordC1 = .ok [] ∧
    sourceContentSlice [7] sampleRecordC1 = [7] ∧
    ([7] : List Nat) ≠ [] :=
  ⟨fun _ _ => rfl, rfl, rfl, by decide⟩

/-- C8: during the MDX-source scan, a record with a non-empty headword longer
than 255 bytes fails the build with `InvalidDataFormat "Key too long"`, one
with content longer than 64 MiB fails with `InvalidDataFormat
"Record too long"`, and a record within both limits is accepted. -/
theorem record_limit_checks (key content : List Nat) (hk : key ≠ []) :
    (ZDB_MAX_KEYWORD_LENGTH < key.length →
      mdictCheckRecord key content = .error (.invalidDataFormat "Key too long")) ∧
    (key.length ≤ ZDB_MAX_KEYWORD_LENGTH → MAX_ENTRY_LEN < content.length →
      mdictCheckRecord key content = .error (.invalidDataFormat "Record too long")) ∧
    (key.length ≤ ZDB_MAX_KEYWORD_LENGTH → content.length ≤ MAX_ENTRY_LEN →
      mdictCheckRecord key content = .ok ()) := by
  have hne : key.isEmpty = false := by simp [hk]
  unfold mdictCheckRecord
  rw [hne]
  unfold ZDB_MAX_KEYWORD_LENGTH MAX_ENTRY_LEN
  refine ⟨fun h1 => ?_, fun h1 h2 => ?_, fun h1 h2 => ?_⟩
  · simp only [Bool.false_eq_true, if_false]
    rw [if_pos (by omega)]
  · simp only [Bool.false_eq_true, if_false]
    rw [if_neg (by omega), if_pos (by omega)]
  · simp only [Bool.false_eq_true, if_false]
    rw [if_neg (by omega), if_neg (by omega)]

theorem record_limit_checks_witness :
    ([97] : List Nat) ≠ [] ∧
    ((ZDB_MAX_KEYWORD_LENGTH < ([97] : List Nat).length →
      mdictCheckRecord [97] [1] = .error (.invalidDataFormat "Key too long")) ∧
    (([97] : List Nat).length ≤ ZDB_MAX_KEYWORD_LENGTH →
      MAX_ENTRY_LEN < ([1] : List Nat).length →
      mdictCheckRecord [97] [1] = .error (.invalidDataFormat "Record too long")) ∧
    (([97] : List Nat).length ≤ ZDB_MAX_KEYWORD_LENGTH →
      ([1] : List Nat).length ≤ MAX_ENTRY_LEN →
      mdictCheckRecord [97] [1] = .ok ())) :=
  ⟨by decide, record_limit_checks [97] [1] (by decide)⟩

theorem assignKeyEntryNos_map_count (l : List KeyBlockIndex) :
    ∀ firstNo offsetInUnit,
      (assignKeyEntryNos firstNo offsetInUnit l).map (·.entryCountInBlock) =
        l.map (·.entryCountInBlock) := by
  induction l with
  | nil => intro f o; rfl
  | cons b rest ih => intro f o; simp [assignKeyEntryNos, ih]

theorem assignKeyEntryNos_map_length (l : List KeyBlockIndex) :
    ∀ firstNo offsetInUnit,
      (assignKeyEntryNos firstNo offsetInUnit l).map (·.blockLength) =
        l.map (·.blockLength) := by
  induction l with
  | nil => intro f o; rfl
  | cons b rest ih => intro f o; simp [assignKeyEntryNos, ih]

theorem assignKeyEntryNos_length (l : List KeyBlockIndex) :
    ∀ firstNo offsetInUnit,
      (assignKeyEntryNos firstNo offsetInUnit l).length = l.length := by
  induction l with
  | nil => intro f o; rfl
  | cons b rest ih => intro f o; simp [assignKeyEntryNos, ih]

theorem assignKeyEntryNos_get (l : List KeyBlockIndex) :
    ∀ (firstNo offsetInUnit i : Nat)
      (h : i < (assignKeyEntryNos firstNo offsetInUnit l).length),
      ((assignKeyEntryNos firstNo offsetInUnit l).get ⟨i, h⟩).firstEntryNoInBlock =
        firstNo + ((l.take i).map (·.entryCountInBlock)).sum ∧
      ((assignKeyEntryNos firstNo offsetInUnit l).get ⟨i, h⟩).blockOffsetInKeyUnit =
        offsetInUnit + ((l.take i).map (·.blockLength)).sum := by
  induction l with
  | nil => intro f o i h; simp [assignKeyEntryNos] at h
  | cons b rest ih =>
    intro f o i h
    cases i with
    | zero => simp [assignKeyEntryNos]
    | succ j =>
      have h2 : j < (assignKeyEntryNos (f + b.entryCountInBlock)
          (o + b.blockLength) rest).length := by
        have := assignKeyEntryNos_length rest (f + b.entryCountInBlock) (o + b.blockLength)
        simp only [assignKeyEntryNos, List.length_cons] at h
        omega
      have hstep := ih (f + b.entryCountInBlock) (o + b.blockLength) j h2
      simp only [assignKeyEntryNos, List.get_cons_succ, List.take_succ_cons,
        List.map_cons, List.sum_cons] at hstep ⊢
      omega

theorem assignContentOffsets_map_orig (l : List ContentBlockIndex) :
    ∀ offsetInSource offsetInUnit,
      (assignContentOffsets offsetInSource offsetInUnit l).map (·.blockOriginalLength) =
        l.map (·.blockOriginalLength) := by
  induction l with
  | nil => intro f o; rfl
  | cons b rest ih => intro f o; simp [assignContentOffsets, ih]

theorem assignContentOffsets_map_comp (l : List ContentBlockIndex) :
    ∀ offsetInSource offsetInUnit,
      (assignContentOffsets offsetInSource offsetInUnit l).map (·.blockCompressedLength) =
        l.map (·.blockCompressedLength) := by
  induction l with
  | nil => intro f o; rfl
  | cons b rest ih => intro f o; simp [assignContentOffsets, ih]

theorem assignContentOffsets_length (l : List ContentBlockIndex) :
    ∀ offsetInSource offsetInUnit,
      (assignContentOffsets offsetInSource offsetInUnit l).length = l.length := by
  induction l with
  | nil => intro f o; rfl
  | cons b rest ih => intro f o; simp [assignContentOffsets, ih]

theorem assignContentOffsets_get (l : List ContentBlockIndex) :
    ∀ (offsetInSource offsetInUnit i : Nat)
      (h : i < (assignContentOffsets offsetInSource offsetInUnit l).length),
      ((assignContentOffsets offsetInSource offsetInUnit l).get ⟨i, h⟩).blockOffsetInSource =
        offsetInSource + ((l.take i).map (·.blockOriginalLength)).sum ∧
      ((assignContentOffsets offsetInSource offsetInUnit l).get ⟨i, h⟩).blockOffsetInUnit =
        offsetInUnit + ((l.take i).map (·.blockCompressedLength)).sum := by
  induction l with
  | nil => intro f o i h; simp [assignContentOffsets] at h
  | cons b rest ih =>
    intro f o i h
    cases i with
    | zero => simp [assignContentOffsets]
    | succ j =>
      have h2 : j < (assignContentOffsets (f + b.blockOriginalLength)
          (o + b.blockCompressedLength) rest).length := by
        have := assignContentOffsets_length rest (f + b.blockOriginalLength)
          (o + b.blockCompressedLength)
        simp only [assignContentOffsets, List.length_cons] at h
        omega
      have hstep := ih (f + b.blockOriginalLength) (o + b.blockCompressedLength) j h2
      simp only [assignContentOffsets, List.get_cons_succ, List.take_succ_cons,
        List.map_cons, List.sum_cons] at hstep ⊢
      omega

/-- C6: after the reader materializes a block-index directory, every key
block index entry's `first_entry_no_in_block` is the running prefix sum of
the prior entries' `entry_count_in_block` values and its
`block_offset_in_key_unit` is the running prefix sum of the prior entries'
compressed `block_length` values; and every content block index entry's
`block_offset_in_source` and `block_offset_in_unit` are the running prefix
sums of the prior entries' original and compressed lengths respectively. -/
theorem block_index_prefix_sums :
    (∀ (meta : MetaLite) (sortKey : List Nat → Except ZdbError (List Nat))
      (decodeStr : List Nat → Except ZdbError String)
      (blockData : List Nat) (blockCount : Nat)
      (entries : List KeyBlockIndex) (total : Nat),
      readKeyBlockIndexEntries meta sortKey decodeStr blockData blockCount =
        .ok (entries, total) →
      ∀ (i : Nat) (h : i < entries.length),
        (entries.get ⟨i, h⟩).firstEntryNoInBlock =
          ((entries.take i).map (·.entryCountInBlock)).sum ∧
        (entries.get ⟨i, h⟩).blockOffsetInKeyUnit =
          ((entries.take i).map (·.blockLength)).sum) ∧
    (∀ (version : ZdbVersion) (blockData : List Nat) (blockCount : Nat)
      (entries : List ContentBlockIndex) (total : Nat),
      readContentBlockIndexEntries version blockData blockCount = .ok (entries, total) →
      ∀ (i : Nat) (h : i < entries.length),
        (entries.get ⟨i, h⟩).blockOffsetInSource =
          ((entries.take i).map (·.blockOriginalLength)).sum ∧
        (entries.get ⟨i, h⟩).blockOffsetInUnit =
          ((entries.take i).map (·.blockCompressedLength)).sum) := by
  constructor
  · intro meta sortKey decodeStr blockData blockCount entries total hread i h
    unfold readKeyBlockIndexEntries at hread
    cases hp : parseKeyBlockIndexes meta sortKey decodeStr blockCount blockData with
    | error e =>
      rw [hp] at hread
      simp only [Bind.bind, Except.bind] at hread
      exact Except.noConfusion hread
    | ok parsed =>
      obtain ⟨pl, pr⟩ := parsed
      rw [hp] at hread
      simp only [Bind.bind, Except.bind, pure, Except.pure, Except.ok.injEq,
        Prod.mk.injEq] at hread
      obtain ⟨hent, -⟩ := hread
      subst hent
      have hget := assignKeyEntryNos_get pl 0 0 i h
      have hmc := assignKeyEntryNos_map_count pl 0 0
      have hml := assignKeyEntryNos_map_length pl 0 0
      constructor
      · rw [hget.1, List.map_take, List.map_take, hmc]
        omega
      · rw [hget.2, List.map_take, List.map_take, hml]
        omega
  · intro version blockData blockCount entries total hread i h
    unfold readContentBlockIndexEntries at hread
    cases hp : parseContentBlockIndexes version blockCount blockData with
    | error e =>
      rw [hp] at hread
      simp only [Bind.bind, Except.bind] at hread
      exact Except.noConfusion hread
    | ok parsed =>
      obtain ⟨pl, pr⟩ := parsed
      rw [hp] at hread
      simp only [Bind.bind, Except.bind, pure, Except.pure, Except.ok.injEq,
        Prod.mk.injEq] at hread
      obtain ⟨hent, -⟩ := hread
      subst hent
      have hget := assignContentOffsets_get pl 0 0 i h
      have hmo := assignContentOffsets_map_orig pl 0 0
      have hmcp := assignContentOffsets_map_comp pl 0 0
      constructor
      · rw [hget.1, List.map_take, List.map_take, hmo]
        omega
      · rw [hget.2, List.map_take, List.map_take, hmcp]
        omega

theorem block_index_prefix_sums_witness :
    (readKeyBlockIndexEntries c6Meta c6SortKey c6DecodeStr c6BlockData 2 =
      .ok (c6Entries, 3)) ∧
    (readContentBlockIndexEntries ZdbVersion.v3 c6ContentData 2 =
      .ok (c6ContentEntries, 30)) ∧
    ((c6Entries.get ⟨1, by decide⟩).firstEntryNoInBlock =
      ((c6Entries.take 1).map (·.entryCountInBlock)).sum ∧
    (c6Entries.get ⟨1, by decide⟩).blockOffsetInKeyUnit =
      ((c6Entries.take 1).map (·.blockLength)).sum) ∧
    ((c6ContentEntries.get ⟨1, by decide⟩).blockOffsetInSource =
      ((c6ContentEntries.take 1).map (·.blockOriginalLength)).sum ∧
    (c6ContentEntries.get ⟨1, by decide⟩).blockOffsetInUnit =
      ((c6ContentEntries.take 1).map (·.blockCompressedLength)).sum) :=
  ⟨rfl, rfl,
    block_index_prefix_sums.1 c6Meta c6SortKey c6DecodeStr c6BlockData 2 c6Entries 3 rfl
      1 (by decide),
    block_index_prefix_sums.2 ZdbVersion.v3 c6ContentData 2 c6ContentEntries 30 rfl
      1 (by decide)⟩

theorem sumOverhead_nil : sumOverhead [] = 0 := rfl

theorem sumOverhead_cons (e : ZdbRecord) (l : List ZdbRecord) :
    sumOverhead (e :: l) = keyOverheadLen e + sumOverhead l := by
  simp [sumOverhead]

theorem takeKeyBlock_append (p : Nat) :
    ∀ (s : Nat) (l : List ZdbRecord),
      (takeKeyBlock p s l).1 ++ (takeKeyBlock p s l).2 = l := by
  intro s l
  induction l generalizing s with
  | nil => rfl
  | cons e rest ih =>
    simp only [takeKeyBlock]
    split
    · rfl
    · simp only [List.cons_append, List.cons.injEq, true_and]
      exact ih _

theorem takeKeyBlock_intra (p : Nat) :
    ∀ (l : List ZdbRecord) (s : Nat) (pre2 : List ZdbRecord) (x : ZdbRecord)
      (suffix2 : List ZdbRecord),
      (takeKeyBlock p s l).1 = pre2 ++ x :: suffix2 →
      s + sumOverhead pre2 + keyOverheadLen x ≤ p := by
  intro l
  induction l with
  | nil =>
    intro s pre2 x sfx h
    exact absurd h (by simp [takeKeyBlock])
  | cons e rest ih =>
    intro s pre2 x sfx h
    by_cases hc : p < s + keyOverheadLen e
    · rw [takeKeyBlock, if_pos hc] at h
      exact absurd h (by simp)
    · rw [takeKeyBlock, if_neg hc] at h
      cases pre2 with
      | nil =>
        simp only [List.nil_append, List.cons.injEq] at h
        rw [sumOverhead_nil, ← h.1]
        omega
      | cons y pre2t =>
        simp only [List.cons_append, List.cons.injEq] at h
        have hstep := ih (s + keyOverheadLen e) pre2t x sfx h.2
        rw [sumOverhead_cons, ← h.1]
        omega

theorem takeKeyBlock_boundary (p : Nat) :
    ∀ (l : List ZdbRecord) (s : Nat) (e2 : ZdbRecord) (r2 : List ZdbRecord),
      (takeKeyBlock p s l).2 = e2 :: r2 →
      p < s + sumOverhead (takeKeyBlock p s l).1 + keyOverheadLen e2 := by
  intro l
  induction l with
  | nil =>
    intro s e2 r2 h
    exact absurd h (by simp [takeKeyBlock])
  | cons e rest ih =>
    intro s e2 r2 h
    by_cases hc : p < s + keyOverheadLen e
    · rw [takeKeyBlock, if_pos hc] at h ⊢
      simp only [List.cons.injEq] at h
      rw [sumOverhead_nil, ← h.1]
      omega
    · rw [takeKeyBlock, if_neg hc] at h ⊢
      have hstep := ih (s + keyOverheadLen e) e2 r2 h
      rw [sumOverhead_cons]
      omega

theorem planKeyBlocks_nil (preferredSize f : Nat) :
    planKeyBlocks preferredSize f [] = [] := by
  rw [planKeyBlocks]

theorem planKeyBlocks_cons (preferredSize f : Nat) (e : ZdbRecord)
    (rest : List ZdbRecord) :
    planKeyBlocks preferredSize f (e :: rest) =
      { entryCountInBlock := (takeKeyBlock preferredSize (keyOverheadLen e) rest).1.length + 1
        firstKey := e.key
        lastKey := ((takeKeyBlock preferredSize (keyOverheadLen e) rest).1.getLastD e).key
        firstSortKey := []
        lastSortKey := []
        blockLength := keyOverheadLen e +
          sumOverhead (takeKeyBlock preferredSize (keyOverheadLen e) rest).1
        rawDataLength := 0
        blockOffsetInKeyUnit := 0
        firstEntryNoInBlock := f } ::
      planKeyBlocks preferredSize
        (f + ((takeKeyBlock preferredSize (keyOverheadLen e) rest).1.length + 1))
        (takeKeyBlock preferredSize (keyOverheadLen e) rest).2 := by
  rw [planKeyBlocks]

theorem planKeyBlocks_spec (preferredSize : Nat) :
    ∀ (f : Nat) (entries : List ZdbRecord),
      ((planKeyBlocks preferredSize f entries).map (·.entryCountInBlock)).sum =
        entries.length ∧
      (∀ (i : Nat) (b : KeyBlockIndex),
        (planKeyBlocks preferredSize f entries)[i]? = some b →
        ∀ (pre : Nat) (seg : List ZdbRecord),
        pre = (((planKeyBlocks preferredSize f entries).take i).map
          (·.entryCountInBlock)).sum →
        seg = (entries.drop pre).take b.entryCountInBlock →
        (b.firstEntryNoInBlock = f + pre ∧
         0 < b.entryCountInBlock ∧
         seg.length = b.entryCountInBlock ∧
         b.blockLength = sumOverhead seg ∧
         (∃ hne2 : seg ≠ [],
           b.firstKey = (seg.head hne2).key ∧ b.lastKey = (seg.getLast hne2).key) ∧
         (∀ (pre2 : List ZdbRecord) (x : ZdbRecord) (suffix2 : List ZdbRecord),
           seg = pre2 ++ x :: suffix2 → pre2 ≠ [] →
           sumOverhead pre2 + keyOverheadLen x ≤ preferredSize) ∧
         (∀ b2 : KeyBlockIndex,
           (planKeyBlocks preferredSize f entries)[i + 1]? = some b2 →
           ∃ e2 r2, entries.drop (pre + b.entryCountInBlock) = e2 :: r2 ∧
             preferredSize < b.blockLength + keyOverheadLen e2))) := by
  intro f entries
  induction f, entries using planKeyBlocks.induct preferredSize with
  | case1 f =>
    refine ⟨by rw [planKeyBlocks_nil]; rfl, ?_⟩
    intro i b hb
    rw [planKeyBlocks_nil] at hb
    simp at hb
  | case2 f e rest q ih =>
    obtain ⟨ihsum, ihblocks⟩ := ih
    have hq : q = takeKeyBlock preferredSize (keyOverheadLen e) rest := rfl
    have hplan := planKeyBlocks_cons preferredSize f e rest
    rw [← hq] at hplan
    have happ : q.1 ++ q.2 = rest := by
      rw [hq]
      exact takeKeyBlock_append preferredSize (keyOverheadLen e) rest
    have hlen : rest.length = q.1.length + q.2.length := by
      conv_lhs => rw [← happ]
      simp
    have hentries : e :: rest = (e :: q.1) ++ q.2 := by
      rw [← happ]
      rfl
    constructor
    · rw [hplan]
      simp only [List.map_cons, List.sum_cons, ihsum, List.length_cons]
      omega
    · intro i b hb pre seg hpre hseg
      rw [hplan] at hb hpre
      cases i with
      | zero =>
        simp only [List.getElem?_cons_zero, Option.some.injEq] at hb
        subst hb
        simp only [List.take_zero, List.map_nil, List.sum_nil] at hpre
        subst hpre
        have hsegeq : seg = e :: q.1 := by
          rw [hseg]
          show ((e :: rest).drop 0).take (q.1.length + 1) = e :: q.1
          rw [List.drop_zero, hentries]
          have hl : q.1.length + 1 = (e :: q.1).length := by simp
          rw [hl, List.take_left]
        subst hsegeq
        refine ⟨by simp, by simp, by simp, ?_, ?_, ?_, ?_⟩
        · show keyOverheadLen e + sumOverhead q.1 = sumOverhead (e :: q.1)
          rw [sumOverhead_cons]
        · refine ⟨by simp, rfl, ?_⟩
          show (q.1.getLastD e).key = ((e :: q.1).getLast (by simp)).key
          rw [List.getLast_eq_getLastD]
        · intro pre2 x sfx hdec hne3
          cases pre2 with
          | nil => exact absurd rfl hne3
          | cons y pre2t =>
            simp only [List.cons_append, List.cons.injEq] at hdec
            obtain ⟨hey, hrest2⟩ := hdec
            have hstep := takeKeyBlock_intra preferredSize rest (keyOverheadLen e)
              pre2t x sfx (by rw [← hq]; exact hrest2)
            rw [sumOverhead_cons, ← hey]
            omega
        · intro b2 hb2
          rw [hplan] at hb2
          simp only [List.getElem?_cons_succ] at hb2
          cases h2 : q.2 with
          | nil =>
            rw [h2, planKeyBlocks_nil] at hb2
            simp at hb2
          | cons e2 r2 =>
            refine ⟨e2, r2, ?_, ?_⟩
            · show (e :: rest).drop (0 + (q.1.length + 1)) = e2 :: r2
              rw [hentries]
              have hl : (0 : Nat) + (q.1.length + 1) = (e :: q.1).length + 0 := by simp
              rw [hl, List.drop_append]
              simpa using h2
            · have hbnd := takeKeyBlock_boundary preferredSize rest (keyOverheadLen e)
                e2 r2 (by rw [← hq]; exact h2)
              rw [← hq] at hbnd
              show preferredSize < keyOverheadLen e + sumOverhead q.1 + keyOverheadLen e2
              omega
      | succ j =>
        simp only [List.getElem?_cons_succ] at hb
        simp only [List.take_succ_cons, List.map_cons, List.sum_cons] at hpre
        have hdrop : ∀ (x : Nat), (e :: rest).drop (q.1.length + 1 + x) = q.2.drop x := by
          intro x
          rw [hentries]
          have hl : (e :: q.1).length = q.1.length + 1 := by simp
          rw [← hl, List.drop_append]
        have hpre2 : pre = q.1.length + 1 +
            ((List.take j (planKeyBlocks preferredSize (f + (q.1.length + 1)) q.2)).map
              (·.entryCountInBlock)).sum := hpre
        have hsegq : seg = (q.2.drop
            (((List.take j (planKeyBlocks preferredSize (f + (q.1.length + 1)) q.2)).map
              (·.entryCountInBlock)).sum)).take b.entryCountInBlock := by
          rw [hseg, hpre2, hdrop]
        have ihstep := ihblocks j b hb _ seg rfl hsegq
        obtain ⟨h1, h2, h3, h4, h5, h6, h7⟩ := ihstep
        refine ⟨by omega, h2, h3, h4, h5, h6, ?_⟩
        intro b2 hb2
        rw [hplan] at hb2
        simp only [List.getElem?_cons_succ] at hb2
        obtain ⟨e2, r2, hd, hbnd⟩ := h7 b2 hb2
        refine ⟨e2, r2, ?_, hbnd⟩
        rw [hpre2]
        have hidx : q.1.length + 1 +
            ((List.take j (planKeyBlocks preferredSize (f + (q.1.length + 1)) q.2)).map
              (·.entryCountInBlock)).sum + b.entryCountInBlock
            = q.1.length + 1 +
            (((List.take j (planKeyBlocks preferredSize (f + (q.1.length + 1)) q.2)).map
              (·.entryCountInBlock)).sum + b.entryCountInBlock) := by omega
        rw [hidx, hdrop]
        exact hd

/-- C5: for a non-empty sorted entry list, the planned key blocks partition
the entries contiguously and in order (the entry counts sum to the total, and
block `i` describes exactly the segment of `entry_count_in_block` entries
starting at the prefix sum of the prior counts, which also equals its
`first_entry_no_in_block`); every block is non-empty; its recorded
`block_length` is the sum of the per-key overheads `len(key) + 1 + 8` of its
segment, and `first_key`/`last_key` are the segment's first and last keys;
within a block every key after the first was added without pushing the
accumulated size over `preferred_key_block_size`, and at every block boundary
adding the next entry's key to the finished block would have exceeded it. -/
theorem key_block_planning (preferredSize : Nat) (entries : List ZdbRecord)
    (hne : entries ≠ []) :
    ((planKeyBlocks preferredSize 0 entries).map (·.entryCountInBlock)).sum =
      entries.length ∧
    (∀ (i : Nat) (b : KeyBlockIndex),
      (planKeyBlocks preferredSize 0 entries)[i]? = some b →
      ∀ (pre : Nat) (seg : List ZdbRecord),
      pre = (((planKeyBlocks preferredSize 0 entries).take i).map
        (·.entryCountInBlock)).sum →
      seg = (entries.drop pre).take b.entryCountInBlock →
      (b.firstEntryNoInBlock = pre ∧
       0 < b.entryCountInBlock ∧
       seg.length = b.entryCountInBlock ∧
       b.blockLength = sumOverhead seg ∧
       (∃ hne2 : seg ≠ [],
         b.firstKey = (seg.head hne2).key ∧ b.lastKey = (seg.getLast hne2).key) ∧
       (∀ (pre2 : List ZdbRecord) (x : ZdbRecord) (suffix2 : List ZdbRecord),
         seg = pre2 ++ x :: suffix2 → pre2 ≠ [] →
         sumOverhead pre2 + keyOverheadLen x ≤ preferredSize) ∧
       (∀ b2 : KeyBlockIndex,
         (planKeyBlocks preferredSize 0 entries)[i + 1]? = some b2 →
         ∃ e2 r2, entries.drop (pre + b.entryCountInBlock) = e2 :: r2 ∧
           preferredSize < b.blockLength + keyOverheadLen e2))) := by
  obtain ⟨h1, h2⟩ := planKeyBlocks_spec preferredSize 0 entries
  refine ⟨h1, ?_⟩
  intro i b hb pre seg hpre hseg
  obtain ⟨g1, g2, g3, g4, g5, g6, g7⟩ := h2 i b hb pre seg hpre hseg
  exact ⟨by omega, g2, g3, g4, g5, g6, g7⟩

theorem key_block_planning_witness :
    c5Entries ≠ [] ∧
    (((planKeyBlocks 25 0 c5Entries).map (·.entryCountInBlock)).sum =
      c5Entries.length ∧
    (∀ (i : Nat) (b : KeyBlockIndex),
      (planKeyBlocks 25 0 c5Entries)[i]? = some b →
      ∀ (pre : Nat) (seg : List ZdbRecord),
      pre = (((planKeyBlocks 25 0 c5Entries).take i).map
        (·.entryCountInBlock)).sum →
      seg = (c5Entries.drop pre).take b.entryCountInBlock →
      (b.firstEntryNoInBlock = pre ∧
       0 < b.entryCountInBlock ∧
       seg.length = b.entryCountInBlock ∧
       b.blockLength = sumOverhead seg ∧
       (∃ hne2 : seg ≠ [],
         b.firstKey = (seg.head hne2).key ∧ b.lastKey = (seg.getLast hne2).key) ∧
       (∀ (pre2 : List ZdbRecord) (x : ZdbRecord) (suffix2 : List ZdbRecord),
         seg = pre2 ++ x :: suffix2 → pre2 ≠ [] →
         sumOverhead pre2 + keyOverheadLen x ≤ 25) ∧
       (∀ b2 : KeyBlockIndex,
         (planKeyBlocks 25 0 c5Entries)[i + 1]? = some b2 →
         ∃ e2 r2, c5Entries.drop (pre + b.entryCountInBlock) = e2 :: r2 ∧
           25 < b.blockLength + keyOverheadLen e2)))) :=
  ⟨by decide, key_block_planning 25 c5Entries (by decide)⟩

theorem except_isOk_exists {α : Type} {e : Except ZdbError α} (h : e.isOk = true) :
    ∃ a, e = .ok a := by
  cases e with
  | ok a => exact ⟨a, rfl⟩
  | error err => exact Bool.noConfusion h

theorem except_throw_eq {α : Type} (e : ZdbError) :
    (throw e : Except ZdbError α) = .error e := rfl

theorem indexLines_ok {n : Nat} (env : LinkEnv n)
    (hidx : ∀ i, (env.getIndex i).isOk = true) :
    ∀ l : List (Fin n), ∃ s, indexLines env l = .ok s := by
  intro l
  induction l with
  | nil => exact ⟨"", rfl⟩
  | cons x xs ih =>
    obtain ⟨ix, hix⟩ := except_isOk_exists (hidx x)
    obtain ⟨s, hs⟩ := ih
    refine ⟨toString ix.entryNo.val ++ ": " ++ ix.key ++ "\n" ++ s, ?_⟩
    simp only [indexLines, hix, hs, Bind.bind, Except.bind, pure, Except.pure]

theorem cyclicMessage_ok {n : Nat} (env : LinkEnv n)
    (hidx : ∀ i, (env.getIndex i).isOk = true)
    (current : KeyIndexM n) (visited : Finset (Fin n)) :
    ∃ m, cyclicMessage env current visited = .ok m := by
  obtain ⟨s, hs⟩ := indexLines_ok env hidx (visited.sort (· ≤ ·))
  refine ⟨"Cyclic link detected, entry links:\n" ++ s ++
    toString current.entryNo.val ++ ": " ++ current.key ++ "\n", ?_⟩
  simp only [cyclicMessage, hs, Bind.bind, Except.bind, pure, Except.pure]

theorem resolve_mem_invalid {n : Nat} (env : LinkEnv n)
    (hidx : ∀ i, (env.getIndex i).isOk = true)
    (current : KeyIndexM n) (visited : Finset (Fin n))
    (hmem : current.entryNo ∈ visited) :
    ∃ m, resolveLinkTargetWithVisited env current visited =
      .error (.invalidDataFormat m) := by
  obtain ⟨m, hm⟩ := cyclicMessage_ok env hidx current visited
  refine ⟨m, ?_⟩
  rw [resolveLinkTargetWithVisited, if_pos hmem]
  simp only [hm, Bind.bind, Except.bind, except_throw_eq]

/-- **C7.** The claim says link resolution follows `@@@LINK=` redirects while
recording visited entries and, on any chain that revisits an entry, fails
with `InvalidDataFormat`, never hanging or panicking. The code does not
deliver the no-panic half: `resolve_link_target_with_visited` strips the
marker with the byte-index slice `content[LINK_PREFIX.len()..]`, which
panics when byte 8 of the decoded string is not a char boundary. The input is
reachable because the link branch tests the raw bytes for both marker forms
while `decode_bytes_to_string` is lossy and never fails: in a UTF-16LE
dictionary whose link content carries the UTF-8 marker bytes, the decode
yields three-byte characters and byte 8 falls inside one. Here entry `a`
links to entry `b`, whose content is such a cross-encoded link back to `a`:
instead of reporting the cycle as `InvalidDataFormat`, resolution panics. -/
theorem resolveLink_char_boundary_panic :
    resolveLinkTargetWithVisited c7BugEnv ⟨0, "a"⟩ ∅ =
      .error (.panicked "byte index is not a char boundary") := by
  have h0 : resolveLinkTargetWithVisited c7BugEnv ⟨0, "a"⟩ ∅ =
      resolveLinkTargetWithVisited c7BugEnv ⟨1, "b"⟩
        (insert ((⟨0, "a"⟩ : KeyIndexM 2).entryNo) ∅) := by
    rw [resolveLinkTargetWithVisited, if_neg (by decide)]
    rfl
  have h1 : resolveLinkTargetWithVisited c7BugEnv ⟨1, "b"⟩
      (insert ((⟨0, "a"⟩ : KeyIndexM 2).entryNo) ∅) =
      .error (.panicked "byte index is not a char boundary") := by
    rw [resolveLinkTargetWithVisited, if_neg (by decide)]
    rfl
  rw [h0, h1]

theorem beVal_be16 (n : Nat) : beVal (be16 n) = n % 65536 := by
  simp only [beVal, be16, List.foldl]
  omega

theorem beVal_be32 (n : Nat) : beVal (be32 n) = n % 4294967296 := by
  simp only [beVal, be32, List.foldl]
  omega

theorem be16_length (n : Nat) : (be16 n).length = 2 := rfl

theorem be32_length (n : Nat) : (be32 n).length = 4 := rfl

theorem be64_length (n : Nat) : (be64 n).length = 8 := rfl

theorem readBytesN_append (l rest : List Nat) :
    readBytesN l.length (l ++ rest) = .ok (l, rest) := by
  unfold readBytesN
  rw [if_pos (by simp)]
  rw [List.take_left, List.drop_left]

theorem readU8_cons (x : Nat) (rest : List Nat) :
    readU8 (x :: rest) = .ok (x % 256, rest) := rfl

theorem readBytesN_all (l : List Nat) : readBytesN l.length l = .ok (l, []) := by
  unfold readBytesN
  rw [if_pos le_rfl, List.take_length, List.drop_length]

theorem readU16BE_append (n : Nat) (rest : List Nat) :
    readU16BE (be16 n ++ rest) = .ok (n % 65536, rest) := by
  unfold readU16BE
  rw [show (2 : Nat) = (be16 n).length from rfl, readBytesN_append]
  show Except.ok (beVal (be16 n), rest) = _
  rw [beVal_be16]

theorem readU32BE_append (n : Nat) (rest : List Nat) :
    readU32BE (be32 n ++ rest) = .ok (n % 4294967296, rest) := by
  unfold readU32BE
  rw [show (4 : Nat) = (be32 n).length from rfl, readBytesN_append]
  show Except.ok (beVal (be32 n), rest) = _
  rw [beVal_be32]

theorem adler32_lt (l : List Nat) : adler32 l < 4294967296 := by
  have h : ∀ (l2 : List Nat) (a b : Nat), a < 65521 → b < 65521 →
      (l2.foldl adlerStep (a, b)).1 < 65521 ∧ (l2.foldl adlerStep (a, b)).2 < 65521 := by
    intro l2
    induction l2 with
    | nil => intro a b ha hb; exact ⟨ha, hb⟩
    | cons x xs ih =>
      intro a b ha hb
      simp only [List.foldl_cons, adlerStep]
      exact ih _ _ (Nat.mod_lt _ (by norm_num)) (Nat.mod_lt _ (by norm_num))
  have h2 := h l 1 0 (by norm_num) (by norm_num)
  simp only [adler32]
  omega

theorem compression_tryFrom_toNat (cm : CompressionMethod) :
    CompressionMethod.tryFrom cm.toNat = .ok cm := by
  cases cm <;> rfl

theorem encryption_tryFrom_toNat (em : EncryptionMethod) :
    EncryptionMethod.tryFrom em.toNat = .ok em := by
  cases em <;> rfl

theorem emcByte_div16 (cm : CompressionMethod) (em : EncryptionMethod) :
    (cm.toNat + em.toNat * 16) / 16 = em.toNat := by
  cases cm <;> cases em <;> rfl

theorem emcByte_mod16 (cm : CompressionMethod) (em : EncryptionMethod) :
    (cm.toNat + em.toNat * 16) % 16 = cm.toNat := by
  cases cm <;> cases em <;> rfl

theorem emcByte_lt (cm : CompressionMethod) (em : EncryptionMethod) :
    cm.toNat + em.toNat * 16 < 256 := by
  cases cm <;> cases em <;> decide

theorem compression_toNat_lt (cm : CompressionMethod) : cm.toNat < 16 := by
  cases cm <;> decide

theorem salsa20WordToByte_length (s : SalsaState) :
    (salsa20WordToByte s).length = 64 := by
  simp [salsa20WordToByte, le32]

theorem zipWith_xor_cancel :
    ∀ (m out : List Nat), m.length ≤ out.length →
      List.zipWith (fun a b => a ^^^ b) (List.zipWith (fun a b => a ^^^ b) m out) out = m := by
  intro m
  induction m with
  | nil => intro out h; rfl
  | cons x xs ih =>
    intro out h
    cases out with
    | nil => simp at h
    | cons y ys =>
      simp only [List.zipWith_cons_cons, List.cons.injEq]
      refine ⟨?_, ih ys (by simpa using h)⟩
      rw [Nat.xor_assoc, Nat.xor_self, Nat.xor_zero]

theorem salsaChunks_length (s : SalsaState) (m : List Nat) :
    (salsaChunks s m).length = m.length := by
  induction s, m using salsaChunks.induct with
  | case1 s m h =>
    rw [salsaChunks]
    simp only [if_pos h, List.length_zipWith, salsa20WordToByte_length]
    omega
  | case2 s m h ih =>
    rw [salsaChunks]
    simp only [if_neg h, List.length_append, List.length_zipWith,
      salsa20WordToByte_length, List.length_take, List.length_drop] at ih ⊢
    omega

theorem salsaChunks_inv (s : SalsaState) (m : List Nat) :
    salsaChunks s (salsaChunks s m) = m := by
  induction s, m using salsaChunks.induct with
  | case1 s m h =>
    have hin : salsaChunks s m =
        List.zipWith (fun a b => a ^^^ b) m (salsa20WordToByte s) := by
      rw [salsaChunks, if_pos h]
    rw [hin, salsaChunks]
    rw [if_pos (by simp only [List.length_zipWith, salsa20WordToByte_length]; omega)]
    exact zipWith_xor_cancel m _ (by rw [salsa20WordToByte_length]; omega)
  | case2 s m h ih =>
    have hin : salsaChunks s m =
        List.zipWith (fun a b => a ^^^ b) (m.take 64) (salsa20WordToByte s) ++
          salsaChunks (salsaIncCounter s) (m.drop 64) := by
      rw [salsaChunks, if_neg h]
    rw [hin, salsaChunks]
    have hA : (List.zipWith (fun a b => a ^^^ b) (m.take 64) (salsa20WordToByte s)).length = 64 := by
      simp only [List.length_zipWith, salsa20WordToByte_length, List.length_take]
      omega
    have hB : (salsaChunks (salsaIncCounter s) (m.drop 64)).length = m.length - 64 :=
      (salsaChunks_length _ _).trans (by simp)
    rw [if_neg (by simp only [List.length_append, hA, hB]; omega)]
    rw [List.take_left' hA, List.drop_left' hA, ih]
    rw [zipWith_xor_cancel (m.take 64) _ (by rw [salsa20WordToByte_length]; simp)]
    exact List.take_append_drop 64 m

theorem salsa20EncryptBytes_length (s : SalsaState) (m : List Nat) :
    (salsa20EncryptBytes s m).length = m.length := by
  unfold salsa20EncryptBytes
  by_cases h : m.isEmpty
  · rw [if_pos h]
    simp [List.isEmpty_iff] at h
    simp [h]
  · rw [if_neg h]
    exact salsaChunks_length s m

theorem salsa20EncryptBytes_inv (s : SalsaState) (m : List Nat) :
    salsa20EncryptBytes s (salsa20EncryptBytes s m) = m := by
  unfold salsa20EncryptBytes
  by_cases h : m.isEmpty
  · rw [if_pos h]
    simp only [List.isEmpty_nil, if_pos]
    simp [List.isEmpty_iff] at h
    exact h.symm
  · rw [if_neg h]
    have hne : (salsaChunks s m).isEmpty = false := by
      rw [List.isEmpty_eq_false_iff_exists_mem]
      have hl := salsaChunks_length s m
      have : m.length ≠ 0 := by
        simp [List.isEmpty_iff, ← List.length_eq_zero] at h
        omega
      cases hsc : salsaChunks s m with
      | nil => rw [hsc] at hl; simp at hl; omega
      | cons a as => exact ⟨a, by simp⟩
  -- continue below
    rw [if_neg (by simp [hne])]
    exact salsaChunks_inv s m

theorem getEncryptor_ok (em : EncryptionMethod) (key : List Nat)
    (hkey : key.length = 16) :
    ∃ c, getEncryptor em key (List.replicate 8 0) = .ok c := by
  cases em with
  | noEnc => exact ⟨_, rfl⟩
  | simple => exact ⟨_, rfl⟩
  | salsa20 =>
    unfold getEncryptor
    rw [if_neg (by omega), if_neg (by simp)]
    exact ⟨_, rfl⟩

theorem cipher_roundtrip (em : EncryptionMethod) (key : List Nat)
    (h16 : key.length = 16) (hkb : ∀ b ∈ key, b < 256)
    (c : Cipher) (hc : getEncryptor em key (List.replicate 8 0) = .ok c)
    (x : List Nat) (hx : ∀ b ∈ x, b < 256) :
    ∃ e, c.encrypt x = .ok e ∧ e.length = x.length ∧ c.decrypt e = .ok x := by
  have hkne : key ≠ [] := by
    intro h
    rw [h] at h16
    simp at h16
  cases em with
  | noEnc =>
    simp only [getEncryptor, Except.ok.injEq] at hc
    subst hc
    exact ⟨x, rfl, rfl, rfl⟩
  | simple =>
    simp only [getEncryptor, Except.ok.injEq] at hc
    subst hc
    refine ⟨simpleEncrypt key x, ?_, ?_, ?_⟩
    · show (if key.isEmpty ∧ ¬x.isEmpty then _ else _) = _
      rw [if_neg (by simp [hkne])]
    · exact simpleEncryptGo_length key x 0 0x36
    · show (if key.isEmpty ∧ ¬(simpleEncrypt key x).isEmpty then _ else _) = _
      rw [if_neg (by simp [hkne])]
      exact congrArg Except.ok
        (simpleDecryptGo_encryptGo key hkne hkb x 0 0x36 (by norm_num) hx)
  | salsa20 =>
    unfold getEncryptor at hc
    rw [if_neg (by omega), if_neg (by simp)] at hc
    simp only [Except.ok.injEq] at hc
    subst hc
    refine ⟨salsa20EncryptBytes (salsa20Init key (List.replicate 8 0)) x, rfl, ?_, ?_⟩
    · exact salsa20EncryptBytes_length _ x
    · exact congrArg Except.ok (salsa20EncryptBytes_inv _ x)

theorem toWriter_encrypt_eq (ext : Externals) (data cryptoKey : List Nat)
    (cm : CompressionMethod) (em : EncryptionMethod)
    (c : Cipher) (hc : getEncryptor em cryptoKey (List.replicate 8 0) = .ok c)
    (hwe : willEncrypt ext data cm em = true)
    (enc : List Nat)
    (henc : c.encrypt ((extCompress ext cm data).take
      (min 32 (extCompress ext cm data).length)) = .ok enc) :
    toWriter ext data cryptoKey cm em = .ok
      (be32 data.length ++
       (be32 ((enc ++ (extCompress ext cm data).drop
          (min 32 (extCompress ext cm data).length)).length + 8) ++
       ([cm.toNat + em.toNat * 16, (min 32 (extCompress ext cm data).length) % 256] ++
       (be16 0 ++ (be32 (adler32 (extCompress ext cm data)) ++
       (enc ++ (extCompress ext cm data).drop
          (min 32 (extCompress ext cm data).length))))))) := by
  unfold toWriter
  rw [hc]
  simp only [Bind.bind, Except.bind]
  rw [if_pos hwe, if_pos hwe]
  rw [henc]
  simp only [Except.bind, pure, Except.pure]
  rfl

theorem toWriter_plain_eq (ext : Externals) (data cryptoKey : List Nat)
    (cm : CompressionMethod) (em : EncryptionMethod)
    (c : Cipher) (hc : getEncryptor em cryptoKey (List.replicate 8 0) = .ok c)
    (hwe : willEncrypt ext data cm em = false) :
    toWriter ext data cryptoKey cm em = .ok
      (be32 data.length ++
       (be32 ((extCompress ext cm data).length + 8) ++
       ([cm.toNat, 0] ++
       (be16 0 ++ (be32 (adler32 data) ++ extCompress ext cm data))))) := by
  unfold toWriter
  rw [hc]
  simp only [Bind.bind, Except.bind]
  rw [if_neg (by simp [hwe]), if_neg (by simp [hwe])]
  simp only [pure, Except.pure]
  rfl

theorem decodeBlock_encrypt_eq (ext : Externals) (cryptoKey : List Nat)
    (cm : CompressionMethod) (em : EncryptionMethod) (hem : em ≠ .noEnc)
    (hkeyne : cryptoKey.isEmpty = false)
    (c : Cipher) (hc : getEncryptor em cryptoKey (List.replicate 8 0) = .ok c)
    (edl : Nat) (hedl : edl < 256)
    (body dec : List Nat) (hlen : edl ≤ body.length)
    (hdec : c.decrypt (body.take edl) = .ok dec)
    (origLen crc : Nat) (hcrc : crc < 4294967296)
    (hcrceq : crc = adler32 (dec ++ body.drop edl))
    (plain : List Nat)
    (hdecomp : extDecompress ext cm (dec ++ body.drop edl) origLen = .ok plain) :
    decodeBlock ext ([cm.toNat + em.toNat * 16, edl] ++ (be16 0 ++ (be32 crc ++ body)))
      cryptoKey origLen = .ok plain := by
  unfold decodeBlock
  simp only [List.cons_append, List.nil_append]
  rw [readU8_cons]
  simp only [Bind.bind, Except.bind]
  rw [readU8_cons]
  simp only [Bind.bind, Except.bind]
  rw [readU16BE_append]
  simp only [Bind.bind, Except.bind]
  rw [readU32BE_append]
  simp only [Bind.bind, Except.bind]
  rw [Nat.mod_eq_of_lt (emcByte_lt cm em), Nat.mod_eq_of_lt hedl, Nat.mod_eq_of_lt hcrc]
  rw [emcByte_div16, encryption_tryFrom_toNat]
  simp only [Bind.bind, Except.bind]
  rw [if_pos hem]
  rw [hkeyne]
  rw [if_neg (by simp)]
  rw [hc]
  simp only [Bind.bind, Except.bind]
  rw [if_neg (by omega)]
  rw [hdec]
  simp only [Bind.bind, Except.bind, pure, Except.pure]
  rw [if_pos hem]
  rw [if_neg (by simp [hcrceq])]
  rw [emcByte_mod16, compression_tryFrom_toNat]
  simp only [Bind.bind, Except.bind, pure, Except.pure]
  rw [hdecomp]
  simp only [Bind.bind, Except.bind, pure, Except.pure]
  rw [if_neg (not_not_intro hem)]

theorem decodeBlock_plain_eq (ext : Externals) (cryptoKey : List Nat)
    (cm : CompressionMethod) (body : List Nat)
    (origLen crc : Nat) (hcrc : crc < 4294967296)
    (plain : List Nat)
    (hdecomp : extDecompress ext cm body origLen = .ok plain)
    (hcrceq : crc = adler32 plain) :
    decodeBlock ext ([cm.toNat, 0] ++ (be16 0 ++ (be32 crc ++ body)))
      cryptoKey origLen = .ok plain := by
  unfold decodeBlock
  simp only [List.cons_append, List.nil_append]
  rw [readU8_cons]
  simp only [Bind.bind, Except.bind]
  rw [readU8_cons]
  simp only [Bind.bind, Except.bind]
  rw [readU16BE_append]
  simp only [Bind.bind, Except.bind]
  rw [readU32BE_append]
  simp only [Bind.bind, Except.bind]
  rw [Nat.mod_eq_of_lt (lt_trans (compression_toNat_lt cm) (by norm_num)),
    Nat.mod_eq_of_lt hcrc]
  rw [Nat.div_eq_of_lt (compression_toNat_lt cm)]
  rw [show EncryptionMethod.tryFrom 0 = .ok EncryptionMethod.noEnc from rfl]
  simp only [Bind.bind, Except.bind]
  rw [if_neg (by simp)]
  simp only [Bind.bind, Except.bind, pure, Except.pure]
  rw [if_neg (by simp)]
  rw [Nat.mod_eq_of_lt (compression_toNat_lt cm), compression_tryFrom_toNat]
  simp only [Bind.bind, Except.bind]
  rw [hdecomp]
  simp only [Bind.bind, Except.bind, pure, Except.pure]
  rw [if_pos (by simp)]
  rw [if_neg (by simp [hcrceq])]

/-- **C2.** For every plaintext payload and crypto key, writing a V3 storage
block with `StorageBlock::to_writer` (any supported compression and encryption
method) and then reading it back with `StorageBlock::from_reader_v3` under the
same key yields exactly the original plaintext bytes, consuming the whole
stream. The hypotheses say the crypto key is 16 bytes of `u8` values (as
`fast_hash` produces), the external codec inverts its own compression on this
payload, the compressed bytes are `u8` values, and the two `u32` header fields
fit in 32 bits. -/
theorem storage_block_roundtrip (ext : Externals) (data cryptoKey : List Nat)
    (cm : CompressionMethod) (em : EncryptionMethod)
    (hkey : cryptoKey.length = 16)
    (hkeyBytes : ∀ b ∈ cryptoKey, b < 256)
    (hcodec : extDecompress ext cm (extCompress ext cm data) data.length = .ok data)
    (hbytes : ∀ b ∈ extCompress ext cm data, b < 256)
    (hdlen : data.length < 4294967296)
    (hclen : (extCompress ext cm data).length + 8 < 4294967296) :
    ∃ out, toWriter ext data cryptoKey cm em = .ok out ∧
      fromReaderV3 ext out cryptoKey = .ok (data, []) := by
  obtain ⟨c, hc⟩ := getEncryptor_ok em cryptoKey hkey
  have hkne : cryptoKey.isEmpty = false := by
    cases cryptoKey with
    | nil => simp at hkey
    | cons a l => rfl
  by_cases hwe : willEncrypt ext data cm em = true
  · have hem : em ≠ .noEnc := by
      have h2 := hwe
      simp [willEncrypt] at h2
      exact h2.2
    obtain ⟨enc, henc, hlenenc, hdec⟩ := cipher_roundtrip em cryptoKey hkey hkeyBytes c hc
      ((extCompress ext cm data).take (min 32 (extCompress ext cm data).length))
      (fun b hb => hbytes b (List.mem_of_mem_take hb))
    have hw := toWriter_encrypt_eq ext data cryptoKey cm em c hc hwe enc henc
    refine ⟨_, hw, ?_⟩
    set compressed := extCompress ext cm data with hcompressed
    set edl := min 32 compressed.length with hedlDef
    have hedlle : edl ≤ compressed.length := Nat.min_le_right _ _
    have hedl32 : edl ≤ 32 := Nat.min_le_left _ _
    have henclen : enc.length = edl := by
      rw [hlenenc, List.length_take]
      omega
    have hbodylen : (enc ++ compressed.drop edl).length = compressed.length := by
      simp only [List.length_append, henclen, List.length_drop]
      omega
    unfold fromReaderV3
    rw [readU32BE_append]
    simp only [Bind.bind, Except.bind]
    rw [Nat.mod_eq_of_lt hdlen]
    rw [readU32BE_append]
    simp only [Bind.bind, Except.bind]
    rw [Nat.mod_eq_of_lt
      (show (enc ++ compressed.drop edl).length + 8 < 4294967296 by omega)]
    have hblk : ([cm.toNat + em.toNat * 16, edl % 256] ++
        (be16 0 ++ (be32 (adler32 compressed) ++ (enc ++ compressed.drop edl)))).length =
        (enc ++ compressed.drop edl).length + 8 := by
      simp only [List.length_append, List.length_cons, List.length_nil,
        be16_length, be32_length]
      omega
    rw [show (enc ++ compressed.drop edl).length + 8 =
      ([cm.toNat + em.toNat * 16, edl % 256] ++
        (be16 0 ++ (be32 (adler32 compressed) ++ (enc ++ compressed.drop edl)))).length
      from hblk.symm]
    rw [readBytesN_all]
    simp only [Bind.bind, Except.bind]
    rw [show edl % 256 = edl from Nat.mod_eq_of_lt (by omega)]
    have htake : (enc ++ compressed.drop edl).take edl = enc := List.take_left' henclen
    have hdrop : (enc ++ compressed.drop edl).drop edl = compressed.drop edl :=
      List.drop_left' henclen
    have hds : compressed.take edl ++ compressed.drop edl = compressed :=
      List.take_append_drop edl compressed
    rw [decodeBlock_encrypt_eq ext cryptoKey cm em hem hkne c hc edl (by omega)
      (enc ++ compressed.drop edl) (compressed.take edl)
      (by rw [hbodylen]; omega)
      (by rw [htake]; exact hdec)
      data.length (adler32 compressed) (adler32_lt _)
      (by rw [hdrop, hds])
      data (by rw [hdrop, hds]; exact hcodec)]
    rfl
  · have hw := toWriter_plain_eq ext data cryptoKey cm em c hc (by simpa using hwe)
    refine ⟨_, hw, ?_⟩
    unfold fromReaderV3
    rw [readU32BE_append]
    simp only [Bind.bind, Except.bind]
    rw [Nat.mod_eq_of_lt hdlen]
    rw [readU32BE_append]
    simp only [Bind.bind, Except.bind]
    rw [Nat.mod_eq_of_lt hclen]
    have hblk : ([cm.toNat, 0] ++
        (be16 0 ++ (be32 (adler32 data) ++ extCompress ext cm data))).length =
        (extCompress ext cm data).length + 8 := by
      simp only [List.length_append, List.length_cons, List.length_nil,
        be16_length, be32_length]
      omega
    rw [show (extCompress ext cm data).length + 8 =
      ([cm.toNat, 0] ++
        (be16 0 ++ (be32 (adler32 data) ++ extCompress ext cm data))).length
      from hblk.symm]
    rw [readBytesN_all]
    simp only [Bind.bind, Except.bind]
    rw [decodeBlock_plain_eq ext cryptoKey cm (extCompress ext cm data)
      data.length (adler32 data) (adler32_lt _) data hcodec rfl]
    rfl

/-- Concrete instance of the C2 roundtrip: identity codec, 16-byte key,
`NoCompression` with `Simple` encryption on the payload `[1, 2, 3]`. -/
theorem storage_block_roundtrip_witness :
    c2Key.length = 16 ∧
    (∃ out, toWriter c2Ext [1, 2, 3] c2Key .noComp .simple = .ok out ∧
      fromReaderV3 c2Ext out c2Key = .ok ([1, 2, 3], [])) :=
  ⟨by decide,
   storage_block_roundtrip c2Ext [1, 2, 3] c2Key .noComp .simple
     (by decide) (by decide) rfl (by decide) (by decide) (by decide)⟩

theorem crc_field_spec (a b x y crc : Nat) (body : List Nat) :
    ((be32 a ++ (be32 b ++ ([x, y] ++ (be16 0 ++ (be32 crc ++ body))))).drop 12).take 4 =
      be32 crc := rfl

theorem decodeBlock_encrypt_crcfail (ext : Externals) (cryptoKey : List Nat)
    (cm : CompressionMethod) (em : EncryptionMethod) (hem : em ≠ .noEnc)
    (hkeyne : cryptoKey.isEmpty = false)
    (c : Cipher) (hc : getEncryptor em cryptoKey (List.replicate 8 0) = .ok c)
    (edl : Nat) (hedl : edl < 256)
    (body dec : List Nat) (hlen : edl ≤ body.length)
    (hdec : c.decrypt (body.take edl) = .ok dec)
    (origLen crc : Nat) (hcrc : crc < 4294967296)
    (hcrcne : crc ≠ adler32 (dec ++ body.drop edl)) :
    decodeBlock ext ([cm.toNat + em.toNat * 16, edl] ++ (be16 0 ++ (be32 crc ++ body)))
      cryptoKey origLen = .error (.crcMismatch crc (adler32 (dec ++ body.drop edl))) := by
  unfold decodeBlock
  simp only [List.cons_append, List.nil_append]
  rw [readU8_cons]
  simp only [Bind.bind, Except.bind]
  rw [readU8_cons]
  simp only [Bind.bind, Except.bind]
  rw [readU16BE_append]
  simp only [Bind.bind, Except.bind]
  rw [readU32BE_append]
  simp only [Bind.bind, Except.bind]
  rw [Nat.mod_eq_of_lt (emcByte_lt cm em), Nat.mod_eq_of_lt hedl, Nat.mod_eq_of_lt hcrc]
  rw [emcByte_div16, encryption_tryFrom_toNat]
  simp only [Bind.bind, Except.bind]
  rw [if_pos hem]
  rw [hkeyne]
  rw [if_neg (by simp)]
  rw [hc]
  simp only [Bind.bind, Except.bind]
  rw [if_neg (by omega)]
  rw [hdec]
  simp only [Bind.bind, Except.bind, pure, Except.pure]
  rw [if_pos hem]
  rw [if_pos hcrcne]

theorem decodeBlock_plain_crcfail (ext : Externals) (cryptoKey : List Nat)
    (cm : CompressionMethod) (body : List Nat)
    (origLen crc : Nat) (hcrc : crc < 4294967296)
    (plain : List Nat)
    (hdecomp : extDecompress ext cm body origLen = .ok plain)
    (hcrcne : crc ≠ adler32 plain) :
    decodeBlock ext ([cm.toNat, 0] ++ (be16 0 ++ (be32 crc ++ body)))
      cryptoKey origLen = .error (.crcMismatch crc (adler32 plain)) := by
  unfold decodeBlock
  simp only [List.cons_append, List.nil_append]
  rw [readU8_cons]
  simp only [Bind.bind, Except.bind]
  rw [readU8_cons]
  simp only [Bind.bind, Except.bind]
  rw [readU16BE_append]
  simp only [Bind.bind, Except.bind]
  rw [readU32BE_append]
  simp only [Bind.bind, Except.bind]
  rw [Nat.mod_eq_of_lt (lt_trans (compression_toNat_lt cm) (by norm_num)),
    Nat.mod_eq_of_lt hcrc]
  rw [Nat.div_eq_of_lt (compression_toNat_lt cm)]
  rw [show EncryptionMethod.tryFrom 0 = .ok EncryptionMethod.noEnc from rfl]
  simp only [Bind.bind, Except.bind]
  rw [if_neg (by simp)]
  simp only [Bind.bind, Except.bind, pure, Except.pure]
  rw [if_neg (by simp)]
  rw [Nat.mod_eq_of_lt (compression_toNat_lt cm), compression_tryFrom_toNat]
  simp only [Bind.bind, Except.bind]
  rw [hdecomp]
  simp only [Bind.bind, Except.bind, pure, Except.pure]
  rw [if_pos (by simp)]
  rw [if_pos hcrcne]

/-- **C4.** The Adler-32 stored at bytes 12..16 of a written storage block is
computed over the compressed bytes when the block was encrypted and over the
original plaintext when it was not, and `decode_block` verifies the checksum
against the same choice of bytes, failing with `CrcMismatch {expected, got}`
on mismatch: for every block `to_writer` emits, the CRC field is
`be32 (adler32 compressed)` in the encrypted case and `be32 (adler32 data)`
otherwise; and a block whose stored CRC differs from the Adler-32 of its
compressed bytes (encrypted case) or of its decompressed plaintext (plain
case) is rejected with exactly that `CrcMismatch` error. -/
theorem storage_block_crc_rule (ext : Externals) (cryptoKey : List Nat)
    (cm : CompressionMethod) (em : EncryptionMethod) :
    (∀ data out, willEncrypt ext data cm em = true →
      toWriter ext data cryptoKey cm em = .ok out →
      (out.drop 12).take 4 = be32 (adler32 (extCompress ext cm data))) ∧
    (∀ data out, willEncrypt ext data cm em = false →
      toWriter ext data cryptoKey cm em = .ok out →
      (out.drop 12).take 4 = be32 (adler32 data)) ∧
    (em ≠ .noEnc → cryptoKey.isEmpty = false →
      ∀ c, getEncryptor em cryptoKey (List.replicate 8 0) = .ok c →
      ∀ edl, edl < 256 → ∀ body dec, edl ≤ body.length →
      c.decrypt (body.take edl) = .ok dec →
      ∀ crc, crc < 4294967296 → crc ≠ adler32 (dec ++ body.drop edl) →
      ∀ origLen,
        decodeBlock ext ([cm.toNat + em.toNat * 16, edl] ++ (be16 0 ++ (be32 crc ++ body)))
          cryptoKey origLen =
          .error (.crcMismatch crc (adler32 (dec ++ body.drop edl)))) ∧
    (∀ body origLen plain crc, extDecompress ext cm body origLen = .ok plain →
      crc < 4294967296 → crc ≠ adler32 plain →
      decodeBlock ext ([cm.toNat, 0] ++ (be16 0 ++ (be32 crc ++ body))) cryptoKey origLen =
        .error (.crcMismatch crc (adler32 plain))) := by
  refine ⟨?_, ?_, ?_, ?_⟩
  · intro data out hwe hout
    cases hge : getEncryptor em cryptoKey (List.replicate 8 0) with
    | error e =>
      have hterr : toWriter ext data cryptoKey cm em = .error e := by
        unfold toWriter
        rw [hge]
        rfl
      rw [hterr] at hout
      simp at hout
    | ok c =>
      cases henc : c.encrypt ((extCompress ext cm data).take
          (min 32 (extCompress ext cm data).length)) with
      | error e =>
        have hterr : toWriter ext data cryptoKey cm em = .error e := by
          unfold toWriter
          rw [hge]
          simp only [Bind.bind, Except.bind]
          rw [if_pos hwe, if_pos hwe, henc]
        rw [hterr] at hout
        simp at hout
      | ok enc =>
        have hw := toWriter_encrypt_eq ext data cryptoKey cm em c hge hwe enc henc
        rw [hw] at hout
        injection hout with h
        subst h
        exact crc_field_spec _ _ _ _ _ _
  · intro data out hwe hout
    cases hge : getEncryptor em cryptoKey (List.replicate 8 0) with
    | error e =>
      have hterr : toWriter ext data cryptoKey cm em = .error e := by
        unfold toWriter
        rw [hge]
        rfl
      rw [hterr] at hout
      simp at hout
    | ok c =>
      have hw := toWriter_plain_eq ext data cryptoKey cm em c hge hwe
      rw [hw] at hout
      injection hout with h
      subst h
      exact crc_field_spec _ _ _ _ _ _
  · intro hem hkeyne c hc edl hedl body dec hlen hdec crc hcrc hcrcne origLen
    exact decodeBlock_encrypt_crcfail ext cryptoKey cm em hem hkeyne c hc edl hedl
      body dec hlen hdec origLen crc hcrc hcrcne
  · intro body origLen plain crc hdecomp hcrc hcrcne
    exact decodeBlock_plain_crcfail ext cryptoKey cm body origLen crc hcrc plain
      hdecomp hcrcne

/-- Concrete instance of the C4 reader check: a plain `NoCompression` block
whose stored CRC `0` differs from the Adler-32 of its payload `[5, 6]` is
rejected with `CrcMismatch`. -/
theorem storage_block_crc_rule_witness :
    (0 : Nat) ≠ adler32 [5, 6] ∧
    decodeBlock c2Ext ([CompressionMethod.noComp.toNat, 0] ++
        (be16 0 ++ (be32 0 ++ [5, 6]))) c2Key 2 =
      .error (.crcMismatch 0 (adler32 [5, 6])) :=
  ⟨by decide,
   (storage_block_crc_rule c2Ext c2Key .noComp .simple).2.2.2 [5, 6] 2 [5, 6] 0 rfl
     (by decide) (by decide)⟩

end Mdx
